import Mathlib

/-!
Verification of the sxm stream X-machine test-generation engine.

This file gives a shallow embedding of the engine (`src/mbt.rs`), of the
machine contract it is written against (the `XMachine` trait as used by the
engine), of the worked example machines (`examples/secure_door.rs`), and of
the composed secure-door system, and proves properties of the embedded code.

Modelling conventions:
- `&'static [T]` enumerations become `List T`.
- `Result<Option<Output>, ()>` becomes `Option (Option Output)` (`none` is
  `Err(())`, i.e. a rejected guard).
- `execute_phi(phi, &mut store, input)` becomes a pure function returning the
  store after the call together with the result; for the machines modelled
  here a rejected guard leaves the store unchanged, exactly as in the source.
- The `while let Some(..) = queue.pop_front()` loops of the two searches are
  modelled with an explicit fuel argument; the fuel chosen for the plain
  search is proved sufficient below, and the fuel for the guard-aware search
  exceeds the total number of nodes its depth bound ever lets it pop.
- `format!` test names are modelled with explicit string concatenation over
  per-machine rendering functions mirroring the derived `Debug` output.
-/

/-- The X-machine contract, as used by the test generator `SxMTester`
(`initial_states`, `final_states`, `all_*` enumerations, `initial_store`,
`next_state`, `execute_phi`, `get_phi_for_input`). The three `repr*` fields
model the `Debug` rendering used only inside generated test names. -/
structure XMachine (Input Output State Memory Phi : Type) where
  next_state : State → Phi → Option State
  initial_states : List State
  final_states : List State
  initial_store : Memory
  execute_phi : Phi → Memory → Input → Memory × Option (Option Output)
  all_states : List State
  all_phis : List Phi
  all_inputs : List Input
  all_outputs : List Output
  get_phi_for_input : State → Input → Option Phi
  reprState : State → String
  reprInput : Input → String
  reprPhi : Phi → String

/-- A generated test vector (`TestCase` in `src/mbt.rs`). -/
structure TestCase (Input Output : Type) where
  name : String
  setup_sequence : List Input
  test_input : Input
  expected_output : Option Output
  verification_sequence : List Input
deriving DecidableEq

section Engine

variable {I O S Mem P : Type}

/-- Index of the first occurrence of `a` in a list (used to state enumeration
order tie-breaking; returns the length when absent). -/
def idxOf [DecidableEq α] (a : α) : List α → Nat
  | [] => 0
  | b :: rest => if b = a then 0 else idxOf a rest + 1

/-- Rendering of a `Vec<Input>` with the derived `Debug` format `[a, b, c]`. -/
def reprList (f : α → String) : List α → String
  | xs => "[" ++ String.intercalate ", " (xs.map f) ++ "]"

/-- One topology step of the plain search: the routed phi for `(s, i)`
followed by its transition, ignoring memory (`get_phi_for_input` then
`next_state` in `find_path_to_state`). -/
def topoStep (M : XMachine I O S Mem P) (s : S) (i : I) : Option S :=
  match M.get_phi_for_input s i with
  | none => none
  | some phi => M.next_state s phi

/-- Run a whole input sequence through the topology (`topoStep` iterated). -/
def topoRun (M : XMachine I O S Mem P) : S → List I → Option S
  | s, [] => some s
  | s, i :: rest =>
    match topoStep M s i with
    | none => none
    | some s' => topoRun M s' rest

/-- `p` is an input sequence over the machine's alphabet that drives the
topology from the initial state `s₀` to `t`. -/
def ValidPath (M : XMachine I O S Mem P) (s₀ : S) (p : List I) (t : S) : Prop :=
  s₀ ∈ M.initial_states ∧ (∀ i ∈ p, i ∈ M.all_inputs) ∧ topoRun M s₀ p = some t

namespace SxMTester

/-- The inner `for input in T::all_inputs()` loop of `find_path_to_state`:
either returns the completed path on hitting the target, or the visited list
and queue-append accumulated so far. -/
def stepInputs (M : XMachine I O S Mem P) [DecidableEq S] (target s : S)
    (path : List I) :
    List I → List S → List (S × List I) → (List I ⊕ List S × List (S × List I))
  | [], vis, acc => Sum.inr (vis, acc)
  | i :: rem, vis, acc =>
    match topoStep M s i with
    | none => stepInputs M target s path rem vis acc
    | some ns =>
      if ns = target then Sum.inl (path ++ [i])
      else if ns ∈ vis then stepInputs M target s path rem vis acc
      else stepInputs M target s path rem (vis ++ [ns]) (acc ++ [(ns, path ++ [i])])

/-- The `while let Some((current_state, path)) = queue.pop_front()` loop of
`find_path_to_state`, with fuel. `none` means the fuel ran out; `some none`
is the loop ending with an empty queue (target not found). -/
def bfsAux (M : XMachine I O S Mem P) [DecidableEq S] (target : S) :
    Nat → List (S × List I) → List S → Option (Option (List I))
  | 0, _, _ => none
  | _ + 1, [], _ => some none
  | fuel + 1, (s, path) :: rest, vis =>
    match stepInputs M target s path M.all_inputs vis [] with
    | Sum.inl found => some (some found)
    | Sum.inr (vis', newNodes) => bfsAux M target fuel (rest ++ newNodes) vis'

/-- The seeding loop of `find_path_to_state`: every initial state is pushed,
returning early with the empty path if one is the target. -/
def seedAux [DecidableEq S] (target : S) :
    List S → List (S × List I) → List S → (Unit ⊕ List (S × List I) × List S)
  | [], q, vis => Sum.inr (q, vis)
  | s :: rest, q, vis =>
    if s = target then Sum.inl ()
    else seedAux target rest (q ++ [(s, ([] : List I))]) (vis ++ [s])

/-- Fuel for the plain search: one pop per seed plus one per state that can
ever enter the visited list, plus one to land in the empty-queue case. -/
def bfsFuel (M : XMachine I O S Mem P) : Nat :=
  M.initial_states.length + M.all_states.length + 1

/-- `find_path_to_state` before collapsing fuel exhaustion: `none` only when
the fuel runs out (proved impossible for contract-satisfying machines). -/
def find_path_raw (M : XMachine I O S Mem P) [DecidableEq S] (target : S) :
    Option (Option (List I)) :=
  match seedAux target M.initial_states [] [] with
  | Sum.inl _ => some (some [])
  | Sum.inr (q, vis) => bfsAux M target (bfsFuel M) q vis

/-- Breadth-first search for the shortest input sequence to a target state
(`SxMTester::find_path_to_state`). -/
def find_path_to_state (M : XMachine I O S Mem P) [DecidableEq S] (target : S) :
    Option (List I) :=
  (find_path_raw M target).join

/-- The inner `for input in T::all_inputs()` loop of
`find_path_to_satisfy_phi`: clone the memory, attempt the routed phi, and on
success enqueue the successor configuration. -/
def stepSat (M : XMachine I O S Mem P) (s : S) (mem : Mem) (path : List I) :
    List I → List (S × Mem × List I) → List (S × Mem × List I)
  | [], acc => acc
  | i :: rem, acc =>
    match M.get_phi_for_input s i with
    | none => stepSat M s mem path rem acc
    | some phi =>
      match M.execute_phi phi mem i with
      | (next_mem, res) =>
        match res with
        | none => stepSat M s mem path rem acc
        | some _ =>
          match M.next_state s phi with
          | none => stepSat M s mem path rem acc
          | some ns => stepSat M s mem path rem (acc ++ [(ns, next_mem, path ++ [i])])

/-- The pop loop of `find_path_to_satisfy_phi`, with fuel (the fuel chosen
below exceeds every reachable queue length so the `0` case never fires; both
fuel exhaustion and queue exhaustion are reported as `none`, matching the
Rust `None` on the runs considered in this file). -/
def satAux (M : XMachine I O S Mem P) [DecidableEq S] (target : S) (phi : P)
    (trigger : I) : Nat → List (S × Mem × List I) → Option (List I × Mem)
  | 0, _ => none
  | _ + 1, [] => none
  | fuel + 1, (s, mem, path) :: rest =>
    if s = target ∧ ((M.execute_phi phi mem trigger).2).isSome then
      some (path, mem)
    else if path.length ≥ 10 then
      satAux M target phi trigger fuel rest
    else
      satAux M target phi trigger fuel (rest ++ stepSat M s mem path M.all_inputs [])

/-- Fuel for the guard-aware search: strictly more than the number of nodes a
depth-10 tree with branching `|all_inputs|` rooted at each seed can hold. -/
def satFuel (M : XMachine I O S Mem P) : Nat :=
  (M.initial_states.length + 1) * (M.all_inputs.length + 1) ^ 11

/-- Memory-tracking breadth-first search for a setup whose resulting memory
satisfies the target phi's guard (`SxMTester::find_path_to_satisfy_phi`). -/
def find_path_to_satisfy_phi (M : XMachine I O S Mem P) [DecidableEq S]
    (target_state : S) (target_phi : P) (trigger_input : I) :
    Option (List I × Mem) :=
  satAux M target_state target_phi trigger_input (satFuel M)
    (M.initial_states.map (fun s => (s, M.initial_store, ([] : List I))))

/-- Inner input loop of `generate_logic_tests`. -/
def logicInner (M : XMachine I O S Mem P) (dist : S → List I) (s : S)
    (path : List I) : List I → List (TestCase I O)
  | [] => []
  | i :: rem =>
    match M.get_phi_for_input s i with
    | none => logicInner M dist s path rem
    | some phi =>
      match M.next_state s phi with
      | none => logicInner M dist s path rem
      | some s' =>
        { name := "Logic Verify: " ++ M.reprState s ++ " + " ++ M.reprInput i
            ++ " -> " ++ M.reprState s'
          setup_sequence := path
          test_input := i
          expected_output := ((M.execute_phi phi M.initial_store i).2).join
          verification_sequence := dist s' } :: logicInner M dist s path rem

/-- Outer state loop of `generate_logic_tests`. -/
def logicOuter (M : XMachine I O S Mem P) [DecidableEq S] (dist : S → List I) :
    List S → List (TestCase I O)
  | [] => []
  | s :: rem =>
    match find_path_to_state M s with
    | none => logicOuter M dist rem
    | some path => logicInner M dist s path M.all_inputs ++ logicOuter M dist rem

/-- Conformance (W-method) test generator
(`SxMTester::generate_logic_tests`). -/
def generate_logic_tests (M : XMachine I O S Mem P) [DecidableEq S]
    (dist : S → List I) : List (TestCase I O) :=
  logicOuter M dist M.all_states

/-- Inner input loop of `generate_robustness_tests`. -/
def robustInner (M : XMachine I O S Mem P) (s : S) (path : List I) :
    List I → List (TestCase I O)
  | [] => []
  | i :: rem =>
    match M.get_phi_for_input s i with
    | some _ => robustInner M s path rem
    | none =>
      { name := "Robustness: " ++ M.reprState s ++ " should reject "
          ++ M.reprInput i
        setup_sequence := path
        test_input := i
        expected_output := none
        verification_sequence := [] } :: robustInner M s path rem

/-- Outer state loop of `generate_robustness_tests`. -/
def robustOuter (M : XMachine I O S Mem P) [DecidableEq S] :
    List S → List (TestCase I O)
  | [] => []
  | s :: rem =>
    match find_path_to_state M s with
    | none => robustOuter M rem
    | some path => robustInner M s path M.all_inputs ++ robustOuter M rem

/-- Input-completeness test generator
(`SxMTester::generate_robustness_tests`). -/
def generate_robustness_tests (M : XMachine I O S Mem P) [DecidableEq S] :
    List (TestCase I O) :=
  robustOuter M M.all_states

/-- Inner input loop of `generate_phi_coverage_tests`. `none` models the
panic of the `T::next_state(start_state, target_phi).unwrap()` call. -/
def phiCovInner (M : XMachine I O S Mem P) [DecidableEq S] (dist : S → List I)
    (s : S) : List I → Option (List (TestCase I O))
  | [] => some []
  | i :: rem =>
    match M.get_phi_for_input s i with
    | none => phiCovInner M dist s rem
    | some target_phi =>
      match find_path_to_satisfy_phi M s target_phi i with
      | none => phiCovInner M dist s rem
      | some (setup_path, resulting_memory) =>
        let expected_output := ((M.execute_phi target_phi resulting_memory i).2).join
        match M.next_state s target_phi with
        | none => none
        | some next_st =>
          (phiCovInner M dist s rem).map (fun ts =>
            { name := "Phi Verify: " ++ M.reprPhi target_phi ++ " (via "
                ++ reprList M.reprInput setup_path ++ ")"
              setup_sequence := setup_path
              test_input := i
              expected_output := expected_output
              verification_sequence := dist next_st } :: ts)

/-- Outer state loop of `generate_phi_coverage_tests`. -/
def phiCovOuter (M : XMachine I O S Mem P) [DecidableEq S] (dist : S → List I) :
    List S → Option (List (TestCase I O))
  | [] => some []
  | s :: rem =>
    match phiCovInner M dist s M.all_inputs with
    | none => none
    | some ts =>
      match phiCovOuter M dist rem with
      | none => none
      | some ts' => some (ts ++ ts')

/-- Phi-coverage test generator (`SxMTester::generate_phi_coverage_tests`).
The result is `none` exactly when the Rust code panics at its `unwrap`. -/
def generate_phi_coverage_tests (M : XMachine I O S Mem P) [DecidableEq S]
    (dist : S → List I) : Option (List (TestCase I O)) :=
  phiCovOuter M dist M.all_states

end SxMTester

/-- One replay step: route the input, execute the routed phi against the
current memory, take the transition (the stepping discipline of
`find_path_to_satisfy_phi`'s expansion). -/
def replayStep (M : XMachine I O S Mem P) (s : S) (mem : Mem) (i : I) :
    Option (S × Mem) :=
  match M.get_phi_for_input s i with
  | none => none
  | some phi =>
    match M.execute_phi phi mem i with
    | (mem', res) =>
      match res with
      | none => none
      | some _ =>
        match M.next_state s phi with
        | none => none
        | some ns => some (ns, mem')

/-- Replay a whole input sequence from a configuration. -/
def replay (M : XMachine I O S Mem P) : S → Mem → List I → Option (S × Mem)
  | s, mem, [] => some (s, mem)
  | s, mem, i :: rest =>
    match replayStep M s mem i with
    | none => none
    | some (ns, mem') => replay M ns mem' rest

end Engine

/-! ## The Digicode machine (`examples/secure_door.rs`) -/

/-- Digicode input alphabet. -/
inductive DigicodeInputAlphabet where
  | OkEnter
  | DoorCloses
  | Digit (d : Nat)
deriving DecidableEq

/-- Digicode output alphabet. -/
inductive DigicodeOutputAlphabet where
  | Digit (d : Nat)
  | Open
  | Initialise
  | IgnoreDigit
  | RejectInput
  | None
deriving DecidableEq

/-- Digicode states. -/
inductive DigicodeState where
  | Ready
  | Accepting
  | CodeEntered
deriving DecidableEq

/-- Digicode memory: digits entered so far and the valid code. `u8` digits
are modelled as `Nat` (they are only stored and compared). -/
structure DigicodeMemory where
  current_sequence : List Nat
  valid_code : List Nat
deriving DecidableEq

/-- Digicode processing functions. -/
inductive DigicodePhi where
  | Reject
  | InputDigit
  | Ignore
  | Finish
  | Lock
deriving DecidableEq

/-- `Digicode::next_state`. -/
def Digicode.next_state : DigicodeState → DigicodePhi → Option DigicodeState
  | .Ready, .InputDigit => some .Accepting
  | .Ready, .Reject => some .Ready
  | .Accepting, .InputDigit => some .Accepting
  | .Accepting, .Finish => some .CodeEntered
  | .Accepting, .Reject => some .Ready
  | .Accepting, .Ignore => some .Accepting
  | .CodeEntered, .Lock => some .Ready
  | _, _ => none

/-- `Digicode::execute_phi`. A rejected guard returns the store unchanged. -/
def Digicode.execute_phi (phi : DigicodePhi) (store : DigicodeMemory)
    (input : DigicodeInputAlphabet) :
    DigicodeMemory × Option (Option DigicodeOutputAlphabet) :=
  match phi, input with
  | .Reject, .OkEnter =>
    if store.current_sequence ≠ store.valid_code then
      ({ store with current_sequence := [] }, some (some .RejectInput))
    else (store, none)
  | .InputDigit, .Digit d =>
    if store.current_sequence.length < store.valid_code.length then
      ({ store with current_sequence := store.current_sequence ++ [d] },
        some (some (.Digit d)))
    else (store, none)
  | .Ignore, .Digit _ =>
    if store.current_sequence.length = store.valid_code.length then
      (store, some (some .IgnoreDigit))
    else (store, none)
  | .Finish, .OkEnter =>
    if store.current_sequence = store.valid_code then
      (store, some (some .Open))
    else (store, none)
  | .Lock, .DoorCloses =>
    ({ store with current_sequence := [] }, some (some .Initialise))
  | _, _ => (store, none)

/-- `Digicode::get_phi_for_input`. -/
def Digicode.get_phi_for_input :
    DigicodeState → DigicodeInputAlphabet → Option DigicodePhi
  | .Ready, .Digit _ => some .InputDigit
  | .Ready, .OkEnter => some .Reject
  | .Accepting, .Digit _ => some .InputDigit
  | .Accepting, .OkEnter => some .Finish
  | .CodeEntered, .DoorCloses => some .Lock
  | _, _ => none

/-- Debug rendering of Digicode inputs. -/
def DigicodeInputAlphabet.repr : DigicodeInputAlphabet → String
  | .OkEnter => "OkEnter"
  | .DoorCloses => "DoorCloses"
  | .Digit d => "Digit(" ++ toString d ++ ")"

/-- Debug rendering of Digicode states. -/
def DigicodeState.repr : DigicodeState → String
  | .Ready => "Ready"
  | .Accepting => "Accepting"
  | .CodeEntered => "CodeEntered"

/-- Debug rendering of Digicode phis. -/
def DigicodePhi.repr : DigicodePhi → String
  | .Reject => "Reject"
  | .InputDigit => "InputDigit"
  | .Ignore => "Ignore"
  | .Finish => "Finish"
  | .Lock => "Lock"

/-- The Digicode machine (`impl XMachine for Digicode`). -/
def Digicode : XMachine DigicodeInputAlphabet DigicodeOutputAlphabet
    DigicodeState DigicodeMemory DigicodePhi where
  next_state := Digicode.next_state
  initial_states := [.Ready]
  final_states := [.Ready, .Accepting, .CodeEntered]
  initial_store := { current_sequence := [], valid_code := [4, 9, 2] }
  execute_phi := Digicode.execute_phi
  all_states := [.Ready, .Accepting, .CodeEntered]
  all_phis := [.Reject, .InputDigit, .Ignore, .Finish, .Lock]
  all_inputs := [.OkEnter, .DoorCloses, .Digit 0, .Digit 1, .Digit 2, .Digit 3,
    .Digit 4, .Digit 5, .Digit 6, .Digit 7, .Digit 8, .Digit 9]
  all_outputs := [.Digit 0, .Digit 1, .Digit 2, .Digit 3, .Digit 4, .Digit 5,
    .Digit 6, .Digit 7, .Digit 8, .Digit 9, .Open, .Initialise, .IgnoreDigit,
    .RejectInput]
  get_phi_for_input := Digicode.get_phi_for_input
  reprState := DigicodeState.repr
  reprInput := DigicodeInputAlphabet.repr
  reprPhi := DigicodePhi.repr

/-! ## The Door machine (`examples/secure_door.rs`) -/

/-- Door input alphabet. -/
inductive DoorInputAlphabet where
  | Open
  | Close
deriving DecidableEq

/-- Door output alphabet. -/
inductive DoorOutputAlphabet where
  | DoorOpens
  | DoorCloses
  | OpenIgnored
  | CloseIgnored
deriving DecidableEq

/-- Door states. -/
inductive DoorState where
  | Closed
  | Opened
deriving DecidableEq

/-- Door processing functions. -/
inductive DoorPhi where
  | OpenDoor
  | CloseDoor
  | IgnoreOpen
  | IgnoreClose
deriving DecidableEq

/-- `Door::next_state`. -/
def Door.next_state : DoorState → DoorPhi → Option DoorState
  | .Closed, .OpenDoor => some .Opened
  | .Closed, .IgnoreClose => some .Closed
  | .Opened, .CloseDoor => some .Closed
  | .Opened, .IgnoreOpen => some .Opened
  | _, _ => none

/-- `Door::execute_phi`. The `u32` open counter is modelled as a natural
number with wrap-around at `2^32` mirroring `*store += 1`. -/
def Door.execute_phi (phi : DoorPhi) (store : Nat) (input : DoorInputAlphabet) :
    Nat × Option (Option DoorOutputAlphabet) :=
  match phi, input with
  | .OpenDoor, .Open => ((store + 1) % 4294967296, some (some .DoorOpens))
  | .CloseDoor, .Close => (store, some (some .DoorCloses))
  | .IgnoreOpen, .Open => (store, some (some .OpenIgnored))
  | .IgnoreClose, .Close => (store, some (some .CloseIgnored))
  | _, _ => (store, none)

/-- `Door::get_phi_for_input` (total over its four state/input pairs). -/
def Door.get_phi_for_input : DoorState → DoorInputAlphabet → Option DoorPhi
  | .Closed, .Open => some .OpenDoor
  | .Closed, .Close => some .IgnoreClose
  | .Opened, .Close => some .CloseDoor
  | .Opened, .Open => some .IgnoreOpen

/-- Debug rendering of Door inputs. -/
def DoorInputAlphabet.repr : DoorInputAlphabet → String
  | .Open => "Open"
  | .Close => "Close"

/-- Debug rendering of Door states. -/
def DoorState.repr : DoorState → String
  | .Closed => "Closed"
  | .Opened => "Opened"

/-- Debug rendering of Door phis. -/
def DoorPhi.repr : DoorPhi → String
  | .OpenDoor => "OpenDoor"
  | .CloseDoor => "CloseDoor"
  | .IgnoreOpen => "IgnoreOpen"
  | .IgnoreClose => "IgnoreClose"

/-- The Door machine (`impl XMachine for Door`). -/
def Door : XMachine DoorInputAlphabet DoorOutputAlphabet DoorState Nat
    DoorPhi where
  next_state := Door.next_state
  initial_states := [.Closed]
  final_states := [.Closed, .Opened]
  initial_store := 0
  execute_phi := Door.execute_phi
  all_states := [.Closed, .Opened]
  all_phis := [.OpenDoor, .CloseDoor, .IgnoreOpen, .IgnoreClose]
  all_inputs := [.Open, .Close]
  all_outputs := [.DoorOpens, .DoorCloses, .OpenIgnored, .CloseIgnored]
  get_phi_for_input := Door.get_phi_for_input
  reprState := DoorState.repr
  reprInput := DoorInputAlphabet.repr
  reprPhi := DoorPhi.repr

/-! ## The composed secure-door system (`SecureDoorSystem` and `main`) -/

/-- `TryFrom<DigicodeOutputAlphabet> for DoorInputAlphabet`. -/
def DoorInputAlphabet.tryFrom : DigicodeOutputAlphabet → Option DoorInputAlphabet
  | .Open => some .Open
  | _ => none

/-- `TryFrom<DoorOutputAlphabet> for DigicodeInputAlphabet`. -/
def DigicodeInputAlphabet.tryFrom : DoorOutputAlphabet → Option DigicodeInputAlphabet
  | .DoorCloses => some .DoorCloses
  | _ => none

/-- The two memories of the composed system. -/
structure SecureDoorSystem where
  digicode_mem : DigicodeMemory
  door_mem : Nat
deriving DecidableEq

/-- `SecureDoorSystem::new()`. -/
def SecureDoorSystem.new : SecureDoorSystem :=
  { digicode_mem := Digicode.initial_store, door_mem := Door.initial_store }

/-- An observable output event of the composed system (the `println!` trace
of `process_input`). -/
inductive SDEvent where
  | digicode (o : DigicodeOutputAlphabet)
  | door (o : DoorOutputAlphabet)
deriving DecidableEq

/-- The `for &phi in Digicode::all_phis()` trial loop of `process_input`:
phis are tried in list order against the live memory until one returns
`Ok(Some(output))`; attempts that do not match that pattern leave their
(possibly updated) memory in place. -/
def tryPhisDigicode : List DigicodePhi → DigicodeMemory → DigicodeInputAlphabet →
    DigicodeMemory × Option DigicodeOutputAlphabet
  | [], m, _ => (m, none)
  | phi :: rest, m, inp =>
    match Digicode.execute_phi phi m inp with
    | (m', some (some o)) => (m', some o)
    | (m', some none) => tryPhisDigicode rest m' inp
    | (m', none) => tryPhisDigicode rest m' inp

/-- The `for &phi in Door::all_phis()` trial loop of `process_input`. -/
def tryPhisDoor : List DoorPhi → Nat → DoorInputAlphabet →
    Nat × Option DoorOutputAlphabet
  | [], m, _ => (m, none)
  | phi :: rest, m, inp =>
    match Door.execute_phi phi m inp with
    | (m', some (some o)) => (m', some o)
    | (m', some none) => tryPhisDoor rest m' inp
    | (m', none) => tryPhisDoor rest m' inp

/-- Result of one iteration of the `loop` in `process_input`. -/
structure SDIter where
  sys : SecureDoorSystem
  pending_digicode : Option DigicodeInputAlphabet
  pending_door : Option DoorInputAlphabet
  events : List SDEvent
  activity : Bool

/-- One iteration of the `loop` body of `SecureDoorSystem::process_input`:
the digicode block (which may route its output to the door), then the door
block (which may route its output back to the digicode). -/
def SecureDoorSystem.processIter (sys : SecureDoorSystem)
    (pd : Option DigicodeInputAlphabet) (pdo : Option DoorInputAlphabet) :
    SDIter :=
  let digi :=
    match pd with
    | none => (sys.digicode_mem, pdo, ([] : List SDEvent), false)
    | some inp =>
      match tryPhisDigicode Digicode.all_phis sys.digicode_mem inp with
      | (m', none) => (m', pdo, ([] : List SDEvent), false)
      | (m', some o) =>
        match DoorInputAlphabet.tryFrom o with
        | some door_inp => (m', some door_inp, [SDEvent.digicode o], true)
        | none => (m', pdo, [SDEvent.digicode o], true)
  match digi with
  | (dm, pdo', evs₁, act₁) =>
    match pdo' with
    | none =>
      { sys := { digicode_mem := dm, door_mem := sys.door_mem }
        pending_digicode := none
        pending_door := none
        events := evs₁
        activity := act₁ }
    | some inp =>
      match tryPhisDoor Door.all_phis sys.door_mem inp with
      | (doorm, none) =>
        { sys := { digicode_mem := dm, door_mem := doorm }
          pending_digicode := none
          pending_door := none
          events := evs₁
          activity := act₁ }
      | (doorm, some o) =>
        { sys := { digicode_mem := dm, door_mem := doorm }
          pending_digicode := DigicodeInputAlphabet.tryFrom o
          pending_door := none
          events := evs₁ ++ [SDEvent.door o]
          activity := true }

/-- The `loop` of `process_input`, with ample fuel (the chained activity of
the two machines quiesces within two iterations for every input). -/
def SecureDoorSystem.processLoop :
    Nat → SecureDoorSystem → Option DigicodeInputAlphabet →
    Option DoorInputAlphabet → List SDEvent → SecureDoorSystem × List SDEvent
  | 0, sys, _, _, evs => (sys, evs)
  | fuel + 1, sys, pd, pdo, evs =>
    let r := SecureDoorSystem.processIter sys pd pdo
    if r.activity then
      SecureDoorSystem.processLoop fuel r.sys r.pending_digicode r.pending_door
        (evs ++ r.events)
    else (r.sys, evs ++ r.events)

/-- `SecureDoorSystem::process_input`, returning the updated system and the
trace of outputs the original prints. -/
def SecureDoorSystem.process_input (sys : SecureDoorSystem)
    (input : DigicodeInputAlphabet) : SecureDoorSystem × List SDEvent :=
  SecureDoorSystem.processLoop 100 sys (some input) none []

/-- The distinguishing-sequence map supplied to the generators in `main`. -/
def identifier_map : DigicodeState → List DigicodeInputAlphabet
  | .Ready => [.Digit 1]
  | .CodeEntered => [.DoorCloses]
  | .Accepting => [.OkEnter]

/-! ## Small machines exercising engine edge cases -/

/-- States for the small test machines. -/
inductive TState where
  | A
  | B
  | T
deriving DecidableEq

/-- Inputs for the small test machines. -/
inductive TIn where
  | x
  | y
deriving DecidableEq

/-- Outputs for the small test machines. -/
inductive TOut where
  | o
deriving DecidableEq

/-- The single processing function of the small test machines. -/
inductive TPhi where
  | go
deriving DecidableEq

/-- Rendering for `TState`. -/
def TState.repr : TState → String
  | .A => "A"
  | .B => "B"
  | .T => "T"

/-- Rendering for `TIn`. -/
def TIn.repr : TIn → String
  | .x => "x"
  | .y => "y"

/-- A machine with a routed self-loop on its only initial state `A` covering
every input, and an unreachable state `B` with no routed input at all. -/
def MRobust : XMachine TIn TOut TState Unit TPhi where
  next_state := fun s phi =>
    match s, phi with
    | .A, .go => some .A
    | _, _ => none
  initial_states := [.A]
  final_states := [.A, .B]
  initial_store := ()
  execute_phi := fun _ m _ => (m, some (some .o))
  all_states := [.A, .B]
  all_phis := [.go]
  all_inputs := [.x]
  all_outputs := [.o]
  get_phi_for_input := fun s _ =>
    match s with
    | .A => some .go
    | _ => none
  reprState := TState.repr
  reprInput := TIn.repr
  reprPhi := fun _ => "go"

/-- A machine whose routing and transition disagree: `(A, x)` routes to `go`
whose guard always passes, but `next_state A go` is undefined. -/
def MDisagree : XMachine TIn TOut TState Unit TPhi where
  next_state := fun _ _ => none
  initial_states := [.A]
  final_states := [.A]
  initial_store := ()
  execute_phi := fun _ m _ => (m, some (some .o))
  all_states := [.A]
  all_phis := [.go]
  all_inputs := [.x]
  all_outputs := [.o]
  get_phi_for_input := fun s _ =>
    match s with
    | .A => some .go
    | _ => none
  reprState := TState.repr
  reprInput := TIn.repr
  reprPhi := fun _ => "go"

/-- A machine with two initial states `A` then `B` and two one-step shortest
paths to `T`: input `y` from `A` and input `x` from `B`, with `x` enumerated
before `y`. -/
def MTie : XMachine TIn TOut TState Unit TPhi where
  next_state := fun s phi =>
    match s, phi with
    | .A, .go => some .T
    | .B, .go => some .T
    | _, _ => none
  initial_states := [.A, .B]
  final_states := [.A, .B, .T]
  initial_store := ()
  execute_phi := fun _ m _ => (m, some (some .o))
  all_states := [.A, .B, .T]
  all_phis := [.go]
  all_inputs := [.x, .y]
  all_outputs := [.o]
  get_phi_for_input := fun s i =>
    match s, i with
    | .A, .y => some .go
    | .B, .x => some .go
    | _, _ => none
  reprState := TState.repr
  reprInput := TIn.repr
  reprPhi := fun _ => "go"

/-! ## Digicode store invariant (claim C10) -/

/-- The Digicode store invariant: the valid code is the constant `[4, 9, 2]`
and at most three digits are ever accumulated. -/
def DigicodeInv (m : DigicodeMemory) : Prop :=
  m.valid_code = [4, 9, 2] ∧ m.current_sequence.length ≤ 3

/-- Apply one `execute_phi` call to a store, keeping the resulting store
whether the guard passed or failed (on failure the store is returned
unchanged, as in the source). -/
def digicodeApplyCall (m : DigicodeMemory)
    (c : DigicodePhi × DigicodeInputAlphabet) : DigicodeMemory :=
  (Digicode.execute_phi c.1 m c.2).1

/-- Every single `execute_phi` call preserves the store invariant. -/
lemma digicode_execute_phi_preserves (phi : DigicodePhi)
    (inp : DigicodeInputAlphabet) (m : DigicodeMemory) (h : DigicodeInv m) :
    DigicodeInv (Digicode.execute_phi phi m inp).1 := by
  obtain ⟨hc, hl⟩ := h
  have h3 : m.valid_code.length = 3 := by rw [hc]; rfl
  cases phi <;> cases inp <;> simp only [Digicode.execute_phi, DigicodeInv] <;>
    try exact ⟨hc, hl⟩
  · split
    · exact ⟨hc, by simp⟩
    · exact ⟨hc, hl⟩
  · split
    · rename_i hg
      refine ⟨hc, ?_⟩
      simp only [List.length_append, List.length_cons, List.length_nil]
      omega
    · exact ⟨hc, hl⟩
  · split
    · exact ⟨hc, hl⟩
    · exact ⟨hc, hl⟩
  · split
    · exact ⟨hc, hl⟩
    · exact ⟨hc, hl⟩
  · exact ⟨hc, by simp⟩

/-- C10: every store reachable from `initial_store` by any sequence of
`execute_phi` calls (whether each call succeeds or fails) keeps
`valid_code = [4, 9, 2]` and at most three accumulated digits, and every
single call preserves that predicate. -/
theorem digicode_reachable_store_invariant
    (calls : List (DigicodePhi × DigicodeInputAlphabet)) :
    DigicodeInv (calls.foldl digicodeApplyCall Digicode.initial_store) ∧
    (∀ m phi inp, DigicodeInv m →
      DigicodeInv (Digicode.execute_phi phi m inp).1) := by
  refine ⟨?_, fun m phi inp h => digicode_execute_phi_preserves phi inp m h⟩
  have base : DigicodeInv Digicode.initial_store := ⟨rfl, by decide⟩
  have gen : ∀ (l : List (DigicodePhi × DigicodeInputAlphabet))
      (m : DigicodeMemory), DigicodeInv m →
      DigicodeInv (l.foldl digicodeApplyCall m) := by
    intro l
    induction l with
    | nil => intro m h; exact h
    | cons c rest ih =>
      intro m h
      exact ih _ (digicode_execute_phi_preserves c.1 c.2 m h)
  exact gen calls Digicode.initial_store base

/-- Witness for C10's preservation hypothesis at a concrete store and call. -/
theorem digicode_reachable_store_invariant_witness :
    DigicodeInv (Digicode.execute_phi .InputDigit Digicode.initial_store
      (.Digit 4)).1 :=
  (digicode_reachable_store_invariant []).2 Digicode.initial_store .InputDigit
    (.Digit 4) ⟨rfl, by decide⟩

/-! ## Composed secure-door scenario (claim C9) -/

/-- C9: from fresh memories, entering the digits 4, 9, 2 and then OkEnter
makes the Digicode emit `Open`, the Door emit `DoorOpens`, and raises the
door open-count from 0 to 1. -/
theorem secure_door_open_scenario :
    SecureDoorSystem.new =
      { digicode_mem := { current_sequence := [], valid_code := [4, 9, 2] }
        door_mem := 0 } ∧
    ((((SecureDoorSystem.new.process_input
        (.Digit 4)).1.process_input
        (.Digit 9)).1.process_input
        (.Digit 2)).1.door_mem = 0) ∧
    ((((SecureDoorSystem.new.process_input
        (.Digit 4)).1.process_input
        (.Digit 9)).1.process_input
        (.Digit 2)).1.process_input .OkEnter).2 =
      [SDEvent.digicode .Open, SDEvent.door .DoorOpens] ∧
    ((((SecureDoorSystem.new.process_input
        (.Digit 4)).1.process_input
        (.Digit 9)).1.process_input
        (.Digit 2)).1.process_input .OkEnter).1.door_mem = 1 := by
  decide

/-! ## Phi-coverage generator panic on routing/transition disagreement
(claim C5) -/

/-- C5: on `MDisagree`, whose routing names a phi with no transition, the
phi-coverage generator hits `next_state(..).unwrap()` on `None` and panics
(modelled as the generator evaluating to `none`). -/
theorem phi_coverage_panics_on_disagreement :
    MDisagree.get_phi_for_input .A .x = some .go ∧
    MDisagree.next_state .A .go = none ∧
    SxMTester.find_path_to_satisfy_phi MDisagree .A .go .x = some ([], ()) ∧
    SxMTester.generate_phi_coverage_tests MDisagree (fun _ => []) = none := by
  decide

/-! ## Guard-aware search on the Digicode Finish phi (claim C7) -/

set_option maxRecDepth 1000000 in
/-- C7: the guard-aware search for the `Finish` phi at state `Accepting`
with trigger `OkEnter` returns exactly the setup `[4, 9, 2]` and the memory
whose accumulated sequence is exactly the valid code. -/
theorem digicode_finish_search_exact :
    SxMTester.find_path_to_satisfy_phi Digicode .Accepting .Finish .OkEnter =
      some ([.Digit 4, .Digit 9, .Digit 2],
        { current_sequence := [4, 9, 2], valid_code := [4, 9, 2] }) := by
  decide

/-! ## Properties of the guard-aware search (claims C1 and C6) -/

/-- Unfolding the expansion loop when the input has no routed phi. -/
lemma stepSat_cons_unrouted (M : XMachine I O S Mem P) (s : S) (mem : Mem)
    (path : List I) (i : I) (rem : List I) (acc : List (S × Mem × List I))
    (h : M.get_phi_for_input s i = none) :
    SxMTester.stepSat M s mem path (i :: rem) acc =
      SxMTester.stepSat M s mem path rem acc := by
  simp [SxMTester.stepSat, h]

/-- Unfolding the expansion loop when the routed phi's guard rejects. -/
lemma stepSat_cons_err (M : XMachine I O S Mem P) (s : S) (mem : Mem)
    (path : List I) (i : I) (rem : List I) (acc : List (S × Mem × List I))
    (phi : P) (nm : Mem) (h1 : M.get_phi_for_input s i = some phi)
    (h2 : M.execute_phi phi mem i = (nm, none)) :
    SxMTester.stepSat M s mem path (i :: rem) acc =
      SxMTester.stepSat M s mem path rem acc := by
  simp [SxMTester.stepSat, h1, h2]

/-- Unfolding the expansion loop when the phi executes but has no
transition. -/
lemma stepSat_cons_notrans (M : XMachine I O S Mem P) (s : S) (mem : Mem)
    (path : List I) (i : I) (rem : List I) (acc : List (S × Mem × List I))
    (phi : P) (nm : Mem) (out : Option O)
    (h1 : M.get_phi_for_input s i = some phi)
    (h2 : M.execute_phi phi mem i = (nm, some out))
    (h3 : M.next_state s phi = none) :
    SxMTester.stepSat M s mem path (i :: rem) acc =
      SxMTester.stepSat M s mem path rem acc := by
  simp [SxMTester.stepSat, h1, h2, h3]

/-- Unfolding the expansion loop when a successor is enqueued. -/
lemma stepSat_cons_push (M : XMachine I O S Mem P) (s : S) (mem : Mem)
    (path : List I) (i : I) (rem : List I) (acc : List (S × Mem × List I))
    (phi : P) (nm : Mem) (out : Option O) (ns : S)
    (h1 : M.get_phi_for_input s i = some phi)
    (h2 : M.execute_phi phi mem i = (nm, some out))
    (h3 : M.next_state s phi = some ns) :
    SxMTester.stepSat M s mem path (i :: rem) acc =
      SxMTester.stepSat M s mem path rem (acc ++ [(ns, nm, path ++ [i])]) := by
  simp [SxMTester.stepSat, h1, h2, h3]

/-- Elimination principle for the expansion loop of the guard-aware search:
everything in its result is either from the accumulator or a successor node
built from a routed phi that executed successfully and has a transition. -/
lemma stepSat_forall (M : XMachine I O S Mem P) (Q : S × Mem × List I → Prop)
    (s : S) (mem : Mem) (path : List I) :
    ∀ (rem : List I) (acc : List (S × Mem × List I)),
      (∀ x ∈ acc, Q x) →
      (∀ i ∈ rem, ∀ phi, M.get_phi_for_input s i = some phi →
        ∀ out, (M.execute_phi phi mem i).2 = some out →
        ∀ ns, M.next_state s phi = some ns →
        Q (ns, (M.execute_phi phi mem i).1, path ++ [i])) →
      ∀ x ∈ SxMTester.stepSat M s mem path rem acc, Q x := by
  intro rem
  induction rem with
  | nil =>
    intro acc hacc _
    simpa [SxMTester.stepSat] using hacc
  | cons i rem ih =>
    intro acc hacc hnew
    have hnew' : ∀ i' ∈ rem, ∀ phi, M.get_phi_for_input s i' = some phi →
        ∀ out, (M.execute_phi phi mem i').2 = some out →
        ∀ ns, M.next_state s phi = some ns →
        Q (ns, (M.execute_phi phi mem i').1, path ++ [i']) := by
      intro i' hi' phi h1 out h2 ns h3
      exact hnew i' (List.mem_cons_of_mem _ hi') phi h1 out h2 ns h3
    cases hphi : M.get_phi_for_input s i with
    | none =>
      rw [stepSat_cons_unrouted M s mem path i rem acc hphi]
      exact ih acc hacc hnew'
    | some phi =>
      cases hex : M.execute_phi phi mem i with
      | mk next_mem res =>
        cases res with
        | none =>
          rw [stepSat_cons_err M s mem path i rem acc phi next_mem hphi hex]
          exact ih acc hacc hnew'
        | some out =>
          cases hns : M.next_state s phi with
          | none =>
            rw [stepSat_cons_notrans M s mem path i rem acc phi next_mem out
              hphi hex hns]
            exact ih acc hacc hnew'
          | some ns =>
            rw [stepSat_cons_push M s mem path i rem acc phi next_mem out ns
              hphi hex hns]
            refine ih (acc ++ [(ns, next_mem, path ++ [i])]) ?_ hnew'
            intro x hx
            rcases List.mem_append.mp hx with hx | hx
            · exact hacc x hx
            · rcases List.mem_singleton.mp hx with rfl
              have := hnew i (List.mem_cons_self _ _) phi hphi out
                (by rw [hex]) ns hns
              rw [hex] at this
              exact this

/-- A replay step fully determined by its three successful components. -/
lemma replayStep_some (M : XMachine I O S Mem P) (s : S) (mem : Mem) (i : I)
    (phi : P) (out : Option O) (ns : S)
    (h1 : M.get_phi_for_input s i = some phi)
    (h2 : (M.execute_phi phi mem i).2 = some out)
    (h3 : M.next_state s phi = some ns) :
    replayStep M s mem i = some (ns, (M.execute_phi phi mem i).1) := by
  cases hex : M.execute_phi phi mem i with
  | mk nm res =>
    rw [hex] at h2
    simp only at h2
    subst h2
    simp [replayStep, h1, hex, h3]

/-- Splitting a replay at its last input. -/
lemma replay_concat (M : XMachine I O S Mem P) :
    ∀ (p : List I) (s : S) (mem : Mem) (i : I),
      replay M s mem (p ++ [i]) =
        (replay M s mem p).bind (fun c => replayStep M c.1 c.2 i) := by
  intro p
  induction p with
  | nil =>
    intro s mem i
    simp only [List.nil_append, replay]
    cases h : replayStep M s mem i with
    | none => simp [replay, h]
    | some c => cases c with | mk ns m' => simp [replay, h]
  | cons j p ih =>
    intro s mem i
    simp only [List.cons_append, replay]
    cases h : replayStep M s mem j with
    | none => simp
    | some c =>
      cases c with
      | mk ns m' => exact ih ns m' i

/-- Queue invariant of the guard-aware search: every enqueued configuration
is reproduced by replaying its path from some initial configuration. -/
def SatNodeOK (M : XMachine I O S Mem P) (x : S × Mem × List I) : Prop :=
  ∃ s₀ ∈ M.initial_states, replay M s₀ M.initial_store x.2.2 = some (x.1, x.2.1)

/-- Soundness of the pop loop of the guard-aware search: from a queue whose
nodes all replay correctly, a successful result replays to the target state
with the returned memory, and the target phi accepts that memory. -/
lemma satAux_sound (M : XMachine I O S Mem P) [DecidableEq S] (t : S) (φ : P)
    (trig : I) :
    ∀ (fuel : Nat) (q : List (S × Mem × List I)),
      (∀ x ∈ q, SatNodeOK M x) →
      ∀ p m, SxMTester.satAux M t φ trig fuel q = some (p, m) →
        (∃ s₀ ∈ M.initial_states, replay M s₀ M.initial_store p = some (t, m)) ∧
        ((M.execute_phi φ m trig).2).isSome := by
  intro fuel
  induction fuel with
  | zero => intro q _ p m h; simp [SxMTester.satAux] at h
  | succ fuel ih =>
    intro q hq p m h
    cases q with
    | nil => simp [SxMTester.satAux] at h
    | cons head rest =>
      cases head with
      | mk s memPath =>
        cases memPath with
        | mk mem path =>
          rw [SxMTester.satAux] at h
          split at h
          · rename_i hcond
            obtain ⟨rfl, hok⟩ := hcond
            obtain ⟨hp, hm⟩ : path = p ∧ mem = m := by
              have h' := Option.some.inj h
              exact ⟨congrArg Prod.fst h', congrArg Prod.snd h'⟩
            subst hp
            subst hm
            obtain ⟨s₀, hs₀, hrep⟩ := hq _ (List.mem_cons_self _ _)
            exact ⟨⟨s₀, hs₀, hrep⟩, hok⟩
          · split at h
            · exact ih rest (fun x hx => hq x (List.mem_cons_of_mem _ hx)) p m h
            · refine ih _ ?_ p m h
              intro x hx
              rcases List.mem_append.mp hx with hx | hx
              · exact hq x (List.mem_cons_of_mem _ hx)
              · refine stepSat_forall M (SatNodeOK M) s mem path M.all_inputs []
                  (by simp) ?_ x hx
                intro i _ phi h1 out h2 ns h3
                obtain ⟨s₀, hs₀, hrep⟩ := hq _ (List.mem_cons_self _ _)
                refine ⟨s₀, hs₀, ?_⟩
                rw [replay_concat, hrep]
                simp only [Option.some_bind]
                exact replayStep_some M s mem i phi out ns h1 h2 h3

/-- C1: whenever the guard-aware search returns `(path, memory)`, replaying
`path` from an initial state and the initial store with the routed phis
reproduces exactly `memory` at the target state, and executing the target
phi with the trigger input against that memory succeeds. -/
theorem find_path_to_satisfy_phi_replay (M : XMachine I O S Mem P)
    [DecidableEq S] (t : S) (φ : P) (trig : I) (p : List I) (m : Mem)
    (h : SxMTester.find_path_to_satisfy_phi M t φ trig = some (p, m)) :
    (∃ s₀ ∈ M.initial_states, replay M s₀ M.initial_store p = some (t, m)) ∧
    ((M.execute_phi φ m trig).2).isSome := by
  refine satAux_sound M t φ trig (SxMTester.satFuel M) _ ?_ p m h
  intro x hx
  obtain ⟨s₀, hs₀, rfl⟩ := List.mem_map.mp hx
  exact ⟨s₀, hs₀, rfl⟩

/-- Witness for C1 on a concrete machine and search result. -/
theorem find_path_to_satisfy_phi_replay_witness :
    (∃ s₀ ∈ MDisagree.initial_states,
      replay MDisagree s₀ MDisagree.initial_store [] = some (.A, ())) ∧
    ((MDisagree.execute_phi .go () .x).2).isSome :=
  find_path_to_satisfy_phi_replay MDisagree .A .go .x [] () (by decide)

/-- All configurations in a guard-aware search queue respect the depth
bound of 10. -/
def SatQueueBounded (q : List (S × Mem × List I)) : Prop :=
  ∀ x ∈ q, x.2.2.length ≤ 10

/-- From a depth-bounded queue, a successful pop loop returns a path of
length at most 10. -/
lemma satAux_bounded (M : XMachine I O S Mem P) [DecidableEq S] (t : S)
    (φ : P) (trig : I) :
    ∀ (fuel : Nat) (q : List (S × Mem × List I)), SatQueueBounded q →
      ∀ p m, SxMTester.satAux M t φ trig fuel q = some (p, m) →
        p.length ≤ 10 := by
  intro fuel
  induction fuel with
  | zero => intro q _ p m h; simp [SxMTester.satAux] at h
  | succ fuel ih =>
    intro q hq p m h
    cases q with
    | nil => simp [SxMTester.satAux] at h
    | cons head rest =>
      cases head with
      | mk s memPath =>
        cases memPath with
        | mk mem path =>
          rw [SxMTester.satAux] at h
          split at h
          · have hp : path = p := congrArg Prod.fst (Option.some.inj h)
            subst hp
            exact hq _ (List.mem_cons_self _ _)
          · split at h
            · exact ih rest (fun x hx => hq x (List.mem_cons_of_mem _ hx)) p m h
            · rename_i hdepth
              refine ih _ ?_ p m h
              intro x hx
              rcases List.mem_append.mp hx with hx | hx
              · exact hq x (List.mem_cons_of_mem _ hx)
              · refine stepSat_forall M (fun x => x.2.2.length ≤ 10) s mem path
                  M.all_inputs [] (by simp) ?_ x hx
                intro i _ phi _ out _ ns _
                simp only [List.length_append, List.length_cons, List.length_nil]
                omega

/-- C6: the seed queue of the guard-aware search is depth-bounded, every
expansion of a depth-bounded queue stays depth-bounded (so every triple ever
enqueued or examined has a path of length at most 10), and any returned
setup path has length at most 10. -/
theorem find_path_to_satisfy_phi_depth_bound (M : XMachine I O S Mem P)
    [DecidableEq S] (t : S) (φ : P) (trig : I) :
    SatQueueBounded
      (M.initial_states.map (fun s => (s, M.initial_store, ([] : List I)))) ∧
    (∀ (s : S) (mem : Mem) (path : List I) (rest : List (S × Mem × List I)),
      SatQueueBounded ((s, mem, path) :: rest) → ¬ path.length ≥ 10 →
      SatQueueBounded (rest ++ SxMTester.stepSat M s mem path M.all_inputs [])) ∧
    (∀ p m, SxMTester.find_path_to_satisfy_phi M t φ trig = some (p, m) →
      p.length ≤ 10) := by
  refine ⟨?_, ?_, ?_⟩
  · intro x hx
    obtain ⟨s₀, _, rfl⟩ := List.mem_map.mp hx
    simp
  · intro s mem path rest hq hdepth x hx
    rcases List.mem_append.mp hx with hx | hx
    · exact hq x (List.mem_cons_of_mem _ hx)
    · refine stepSat_forall M (fun x => x.2.2.length ≤ 10) s mem path
        M.all_inputs [] (by simp) ?_ x hx
      intro i _ phi _ out _ ns _
      simp only [List.length_append, List.length_cons, List.length_nil]
      omega
  · intro p m h
    refine satAux_bounded M t φ trig (SxMTester.satFuel M) _ ?_ p m h
    intro x hx
    obtain ⟨s₀, _, rfl⟩ := List.mem_map.mp hx
    simp

/-- Witness for C6 on a concrete machine, queue and search result. -/
theorem find_path_to_satisfy_phi_depth_bound_witness :
    ([] : List TIn).length ≤ 10 :=
  (find_path_to_satisfy_phi_depth_bound MDisagree .A .go .x).2.2 [] ()
    (by decide)

/-! ## The logic (conformance) generator (claim C3) -/

/-- Every test produced by the inner loop of the logic generator comes from
a routed input with a defined transition and carries the stated fields. -/
lemma logicInner_mem (M : XMachine I O S Mem P) (dist : S → List I) (s : S)
    (path : List I) :
    ∀ (rem : List I) (t : TestCase I O), t ∈ SxMTester.logicInner M dist s path rem →
      ∃ i ∈ rem, ∃ phi, M.get_phi_for_input s i = some phi ∧
        ∃ s', M.next_state s phi = some s' ∧
        t = { name := "Logic Verify: " ++ M.reprState s ++ " + "
                ++ M.reprInput i ++ " -> " ++ M.reprState s'
              setup_sequence := path
              test_input := i
              expected_output := ((M.execute_phi phi M.initial_store i).2).join
              verification_sequence := dist s' } := by
  intro rem
  induction rem with
  | nil => intro t ht; simp [SxMTester.logicInner] at ht
  | cons i rem ih =>
    intro t ht
    rw [SxMTester.logicInner] at ht
    cases hphi : M.get_phi_for_input s i with
    | none =>
      simp only [hphi] at ht
      obtain ⟨i', hi', rest⟩ := ih t ht
      exact ⟨i', List.mem_cons_of_mem _ hi', rest⟩
    | some phi =>
      simp only [hphi] at ht
      cases hns : M.next_state s phi with
      | none =>
        simp only [hns] at ht
        obtain ⟨i', hi', rest⟩ := ih t ht
        exact ⟨i', List.mem_cons_of_mem _ hi', rest⟩
      | some s' =>
        simp only [hns] at ht
        rcases List.mem_cons.mp ht with rfl | ht
        · exact ⟨i, List.mem_cons_self _ _, phi, hphi, s', hns, rfl⟩
        · obtain ⟨i', hi', rest⟩ := ih t ht
          exact ⟨i', List.mem_cons_of_mem _ hi', rest⟩

/-- Every test produced by the outer loop of the logic generator comes from
a state with a plain-search path, via the inner loop on that path. -/
lemma logicOuter_mem (M : XMachine I O S Mem P) [DecidableEq S]
    (dist : S → List I) :
    ∀ (states : List S) (t : TestCase I O), t ∈ SxMTester.logicOuter M dist states →
      ∃ s ∈ states, ∃ path, SxMTester.find_path_to_state M s = some path ∧
        t ∈ SxMTester.logicInner M dist s path M.all_inputs := by
  intro states
  induction states with
  | nil => intro t ht; simp [SxMTester.logicOuter] at ht
  | cons s rem ih =>
    intro t ht
    rw [SxMTester.logicOuter] at ht
    cases hfp : SxMTester.find_path_to_state M s with
    | none =>
      simp only [hfp] at ht
      obtain ⟨s', hs', rest⟩ := ih t ht
      exact ⟨s', List.mem_cons_of_mem _ hs', rest⟩
    | some path =>
      simp only [hfp] at ht
      rcases List.mem_append.mp ht with ht | ht
      · exact ⟨s, List.mem_cons_self _ _, path, hfp, ht⟩
      · obtain ⟨s', hs', rest⟩ := ih t ht
        exact ⟨s', List.mem_cons_of_mem _ hs', rest⟩

/-- C3: every test emitted by the logic generator is built for a state `s`
with a plain-search path and an input `i` with routed phi and defined
transition to `s'`; its setup sequence is that path, its verification
sequence is `dist s'`, and its expected output is computed by executing the
phi against a freshly initialised store (`initial_store`), not against the
store replaying the setup sequence would produce. -/
theorem generate_logic_tests_fields (M : XMachine I O S Mem P) [DecidableEq S]
    (dist : S → List I) (t : TestCase I O)
    (h : t ∈ SxMTester.generate_logic_tests M dist) :
    ∃ s ∈ M.all_states, ∃ path, SxMTester.find_path_to_state M s = some path ∧
    ∃ i ∈ M.all_inputs, ∃ phi, M.get_phi_for_input s i = some phi ∧
    ∃ s', M.next_state s phi = some s' ∧
    t.setup_sequence = path ∧
    t.test_input = i ∧
    t.verification_sequence = dist s' ∧
    t.expected_output = ((M.execute_phi phi M.initial_store i).2).join := by
  obtain ⟨s, hs, path, hfp, hinner⟩ := logicOuter_mem M dist M.all_states t h
  obtain ⟨i, hi, phi, hphi, s', hns, rfl⟩ :=
    logicInner_mem M dist s path M.all_inputs t hinner
  exact ⟨s, hs, path, hfp, i, hi, phi, hphi, s', hns, rfl, rfl, rfl, rfl⟩

/-- Witness for C3 at the first logic test of the Digicode machine. -/
theorem generate_logic_tests_fields_witness :
    ∃ s ∈ Digicode.all_states, ∃ path,
      SxMTester.find_path_to_state Digicode s = some path ∧
    ∃ i ∈ Digicode.all_inputs, ∃ phi,
      Digicode.get_phi_for_input s i = some phi ∧
    ∃ s', Digicode.next_state s phi = some s' ∧
    ({ name := "Logic Verify: Ready + OkEnter -> Ready"
       setup_sequence := []
       test_input := DigicodeInputAlphabet.OkEnter
       expected_output := some DigicodeOutputAlphabet.RejectInput
       verification_sequence := [DigicodeInputAlphabet.Digit 1] } :
        TestCase DigicodeInputAlphabet DigicodeOutputAlphabet).setup_sequence
      = path ∧
    (TestCase.mk "Logic Verify: Ready + OkEnter -> Ready" []
      DigicodeInputAlphabet.OkEnter (some DigicodeOutputAlphabet.RejectInput)
      [DigicodeInputAlphabet.Digit 1]).test_input = i ∧
    (TestCase.mk "Logic Verify: Ready + OkEnter -> Ready" []
      DigicodeInputAlphabet.OkEnter (some DigicodeOutputAlphabet.RejectInput)
      [DigicodeInputAlphabet.Digit 1]).verification_sequence
      = identifier_map s' ∧
    (TestCase.mk "Logic Verify: Ready + OkEnter -> Ready" []
      DigicodeInputAlphabet.OkEnter (some DigicodeOutputAlphabet.RejectInput)
      [DigicodeInputAlphabet.Digit 1]).expected_output
      = ((Digicode.execute_phi phi Digicode.initial_store i).2).join :=
  generate_logic_tests_fields Digicode identifier_map
    (TestCase.mk "Logic Verify: Ready + OkEnter -> Ready" []
      DigicodeInputAlphabet.OkEnter (some DigicodeOutputAlphabet.RejectInput)
      [DigicodeInputAlphabet.Digit 1]) (by decide)

/-! ## The robustness generator (claim C4) -/

/-- Counterexample to C4 as stated: `MRobust` has a state `B` and input `x`
with no routed phi, yet the robustness generator emits no test at all,
because `B` is unreachable and the generator skips states without a
plain-search path. -/
theorem robustness_misses_unreachable_state :
    (TState.B ∈ MRobust.all_states) ∧
    (TIn.x ∈ MRobust.all_inputs) ∧
    MRobust.get_phi_for_input .B .x = none ∧
    SxMTester.generate_robustness_tests MRobust = [] := by
  decide

/-- The inner loop of the robustness generator emits its rejection test for
every listed input with no routed phi. -/
lemma robustInner_emits (M : XMachine I O S Mem P) (s : S) (path : List I) :
    ∀ (rem : List I) (i : I), i ∈ rem → M.get_phi_for_input s i = none →
      ({ name := "Robustness: " ++ M.reprState s ++ " should reject "
            ++ M.reprInput i
         setup_sequence := path
         test_input := i
         expected_output := none
         verification_sequence := [] } : TestCase I O) ∈
        SxMTester.robustInner M s path rem := by
  intro rem
  induction rem with
  | nil => intro i hi; simp at hi
  | cons j rem ih =>
    intro i hi hnone
    rw [SxMTester.robustInner]
    rcases List.mem_cons.mp hi with rfl | hi
    · simp only [hnone]
      exact List.mem_cons_self _ _
    · cases hj : M.get_phi_for_input s j with
      | none =>
        simp only [hj]
        exact List.mem_cons_of_mem _ (ih i hi hnone)
      | some phi =>
        simp only [hj]
        exact ih i hi hnone

/-- The outer loop of the robustness generator keeps every inner emission of
a listed state that has a plain-search path. -/
lemma robustOuter_emits (M : XMachine I O S Mem P) [DecidableEq S] :
    ∀ (states : List S) (s : S) (path : List I) (t : TestCase I O),
      s ∈ states → SxMTester.find_path_to_state M s = some path →
      t ∈ SxMTester.robustInner M s path M.all_inputs →
      t ∈ SxMTester.robustOuter M states := by
  intro states
  induction states with
  | nil => intro s path t hs; simp at hs
  | cons s₀ rem ih =>
    intro s path t hs hfp hinner
    rw [SxMTester.robustOuter]
    rcases List.mem_cons.mp hs with rfl | hs
    · simp only [hfp]
      exact List.mem_append_left _ hinner
    · cases hfp₀ : SxMTester.find_path_to_state M s₀ with
      | none =>
        simp only [hfp₀]
        exact ih s path t hs hfp hinner
      | some path₀ =>
        simp only [hfp₀]
        exact List.mem_append_right _ (ih s path t hs hfp hinner)

/-- C4 amended: for every state `s` that the plain search reaches and every
input `i` with no routed phi, the robustness generator emits the rejection
test for `(s, i)` with no expected output and an empty verification
sequence. -/
theorem generate_robustness_tests_emits (M : XMachine I O S Mem P)
    [DecidableEq S] (s : S) (path : List I) (i : I)
    (hs : s ∈ M.all_states)
    (hfp : SxMTester.find_path_to_state M s = some path)
    (hi : i ∈ M.all_inputs)
    (hnone : M.get_phi_for_input s i = none) :
    ({ name := "Robustness: " ++ M.reprState s ++ " should reject "
          ++ M.reprInput i
       setup_sequence := path
       test_input := i
       expected_output := none
       verification_sequence := [] } : TestCase I O) ∈
      SxMTester.generate_robustness_tests M :=
  robustOuter_emits M M.all_states s path _ hs hfp
    (robustInner_emits M s path M.all_inputs i hi hnone)

/-- Witness for C4's amended theorem: the Digicode rejection test for
`DoorCloses` in the (reachable) `Ready` state. -/
theorem generate_robustness_tests_emits_witness :
    ({ name := "Robustness: Ready should reject DoorCloses"
       setup_sequence := []
       test_input := DigicodeInputAlphabet.DoorCloses
       expected_output := none
       verification_sequence := [] } :
        TestCase DigicodeInputAlphabet DigicodeOutputAlphabet) ∈
      SxMTester.generate_robustness_tests Digicode :=
  generate_robustness_tests_emits Digicode .Ready [] .DoorCloses (by decide)
    (by decide) (by decide) (by decide)

/-! ## Correctness of the plain reachability search (claim C2) -/

section PlainSearch

variable {I O S Mem P : Type}

/-- One closure check: if `(s, i)` has a routed transition, its destination
is listed in `all_states`. -/
def closedStepB (M : XMachine I O S Mem P) [DecidableEq S] (s : S) (i : I) :
    Bool :=
  match topoStep M s i with
  | none => true
  | some s' => decide (s' ∈ M.all_states)

/-- The machine-contract assumption of the spec: `all_states` lists every
initial state and is closed under routed transitions (exhaustive
enumerations). -/
def ClosedMachine (M : XMachine I O S Mem P) [DecidableEq S] : Prop :=
  (∀ s ∈ M.initial_states, s ∈ M.all_states) ∧
  (∀ s ∈ M.all_states, ∀ i ∈ M.all_inputs, closedStepB M s i = true)

instance (M : XMachine I O S Mem P) [DecidableEq S] :
    Decidable (ClosedMachine M) := by
  unfold ClosedMachine
  infer_instance

/-- Closure applied to one routed step. -/
lemma ClosedMachine.step_mem (M : XMachine I O S Mem P) [DecidableEq S]
    (h : ClosedMachine M) {s : S} {i : I} {s' : S} (hs : s ∈ M.all_states)
    (hi : i ∈ M.all_inputs) (hstep : topoStep M s i = some s') :
    s' ∈ M.all_states := by
  have hb := h.2 s hs i hi
  rw [closedStepB, hstep] at hb
  simpa using hb

/-- Splitting a topology run at its last input. -/
lemma topoRun_concat (M : XMachine I O S Mem P) :
    ∀ (p : List I) (s : S) (i : I),
      topoRun M s (p ++ [i]) =
        (topoRun M s p).bind (fun u => topoStep M u i) := by
  intro p
  induction p with
  | nil =>
    intro s i
    simp only [List.nil_append, topoRun]
    cases h : topoStep M s i <;> simp [topoRun, h]
  | cons j p ih =>
    intro s i
    simp only [List.cons_append, topoRun]
    cases h : topoStep M s j with
    | none => simp
    | some s' => exact ih s' i

/-- A relation holding for any two elements is pairwise on any list. -/
lemma pairwiseOfForall {α : Type} {R : α → α → Prop} (h : ∀ a b, R a b) :
    ∀ l : List α, List.Pairwise R l := by
  intro l
  induction l with
  | nil => exact List.Pairwise.nil
  | cons a l ih => exact List.Pairwise.cons (fun b _ => h a b) ih

/-- Number of enumerated states not yet visited (the decreasing part of the
plain search's termination measure). -/
def countUnvisited (M : XMachine I O S Mem P) [DecidableEq S]
    (V : List S) : Nat :=
  (M.all_states.filter (fun a => decide (a ∉ V))).length

/-- Filtering with a pointwise stronger predicate yields a shorter list. -/
lemma filter_imp_length_le {α : Type} (p q : α → Bool)
    (h : ∀ a, p a = true → q a = true) :
    ∀ l : List α, (l.filter p).length ≤ (l.filter q).length := by
  intro l
  induction l with
  | nil => simp
  | cons b l ih =>
    by_cases hp : p b = true
    · rw [List.filter_cons_of_pos hp, List.filter_cons_of_pos (h b hp)]
      simpa using ih
    · rw [List.filter_cons_of_neg (by simpa using hp)]
      by_cases hq : q b = true
      · rw [List.filter_cons_of_pos hq]
        exact Nat.le_succ_of_le ih
      · rw [List.filter_cons_of_neg (by simpa using hq)]
        exact ih

/-- Excluding one present, unvisited element strictly shrinks the unvisited
filter. -/
lemma filter_notmem_snoc_lt {α : Type} [DecidableEq α] :
    ∀ (l V : List α) (c : α), c ∈ l → c ∉ V →
      (l.filter (fun a => decide (a ∉ V ++ [c]))).length + 1 ≤
        (l.filter (fun a => decide (a ∉ V))).length := by
  intro l
  induction l with
  | nil => intro V c hc; simp at hc
  | cons b l ih =>
    intro V c hc hV
    by_cases hbc : b = c
    · subst hbc
      have e1 : decide (b ∉ V ++ [b]) = false := by simp
      have e2 : decide (b ∉ V) = true := by simpa using hV
      have hmono : (l.filter (fun a => decide (a ∉ V ++ [b]))).length ≤
          (l.filter (fun a => decide (a ∉ V))).length := by
        refine filter_imp_length_le _ _ ?_ l
        intro a ha
        simp only [decide_eq_true_eq] at ha ⊢
        exact fun hm => ha (List.mem_append_left _ hm)
      simp only [List.filter_cons, e1, e2, Bool.false_eq_true, if_false,
        if_true, List.length_cons]
      omega
    · have hc' : c ∈ l := by
        rcases List.mem_cons.mp hc with h | h
        · exact absurd h.symm hbc
        · exact h
      have hrec := ih V c hc' hV
      by_cases hbV : b ∈ V
      · have e1 : decide (b ∉ V ++ [c]) = false := by
          simp [List.mem_append, hbV]
        have e2 : decide (b ∉ V) = false := by simp [hbV]
        simp only [List.filter_cons, e1, e2, Bool.false_eq_true, if_false]
        exact hrec
      · have e1 : decide (b ∉ V ++ [c]) = true := by
          simp only [decide_eq_true_eq, List.mem_append, List.mem_singleton]
          rintro (h | h)
          · exact hbV h
          · exact hbc h
        have e2 : decide (b ∉ V) = true := by simpa using hbV
        simp only [List.filter_cons, e1, e2, if_true, List.length_cons]
        omega

/-- Visiting one new enumerated state strictly decreases the unvisited
count. -/
lemma countUnvisited_snoc (M : XMachine I O S Mem P) [DecidableEq S]
    (V : List S) (c : S) (hc : c ∈ M.all_states) (hV : c ∉ V) :
    countUnvisited M (V ++ [c]) + 1 ≤ countUnvisited M V :=
  filter_notmem_snoc_lt M.all_states V c hc hV

/-- Visiting a batch of fresh enumerated states decreases the unvisited
count by the batch size. -/
lemma countUnvisited_append (M : XMachine I O S Mem P) [DecidableEq S] :
    ∀ (ns V : List S), (∀ c ∈ ns, c ∈ M.all_states) → ns.Nodup →
      (∀ c ∈ ns, c ∉ V) →
      countUnvisited M (V ++ ns) + ns.length ≤ countUnvisited M V := by
  intro ns
  induction ns with
  | nil => intro V _ _ _; simp [Nat.le_refl]
  | cons c ns ih =>
    intro V hall hnd hfresh
    have h1 : countUnvisited M (V ++ [c]) + 1 ≤ countUnvisited M V :=
      countUnvisited_snoc M V c (hall c (List.mem_cons_self _ _))
        (hfresh c (List.mem_cons_self _ _))
    have h2 : countUnvisited M ((V ++ [c]) ++ ns) + ns.length ≤
        countUnvisited M (V ++ [c]) := by
      refine ih (V ++ [c]) (fun c' hc' => hall c' (List.mem_cons_of_mem _ hc'))
        (List.Nodup.of_cons hnd) ?_
      intro c' hc'
      simp only [List.mem_append, List.mem_singleton]
      rintro (h | h)
      · exact hfresh c' (List.mem_cons_of_mem _ hc') h
      · exact (List.nodup_cons.mp hnd).1 (h ▸ hc')
    have e : (V ++ [c]) ++ ns = V ++ c :: ns := by simp
    rw [e] at h2
    simp only [List.length_cons]
    omega

/-- The unvisited count never exceeds the state enumeration's length. -/
lemma countUnvisited_le (M : XMachine I O S Mem P) [DecidableEq S]
    (V : List S) : countUnvisited M V ≤ M.all_states.length :=
  List.length_filter_le _ _

/-- The inner loop of the plain search returns early exactly with a
one-step extension of the popped path hitting the target. -/
lemma stepInputs_inl_spec (M : XMachine I O S Mem P) [DecidableEq S]
    (target s : S) (path : List I) :
    ∀ (rem : List I) (vis : List S) (acc : List (S × List I)) (found : List I),
      SxMTester.stepInputs M target s path rem vis acc = Sum.inl found →
      ∃ i ∈ rem, topoStep M s i = some target ∧ found = path ++ [i] := by
  intro rem
  induction rem with
  | nil => intro vis acc found h; simp [SxMTester.stepInputs] at h
  | cons i rem ih =>
    intro vis acc found h
    rw [SxMTester.stepInputs] at h
    cases hstep : topoStep M s i with
    | none =>
      simp only [hstep] at h
      obtain ⟨i', hi', h1, h2⟩ := ih vis acc found h
      exact ⟨i', List.mem_cons_of_mem _ hi', h1, h2⟩
    | some ns =>
      simp only [hstep] at h
      by_cases h1 : ns = target
      · rw [if_pos h1] at h
        subst h1
        exact ⟨i, List.mem_cons_self _ _, hstep, (Sum.inl.inj h).symm⟩
      · rw [if_neg h1] at h
        by_cases h2 : ns ∈ vis
        · rw [if_pos h2] at h
          obtain ⟨i', hi', ha, hb⟩ := ih vis acc found h
          exact ⟨i', List.mem_cons_of_mem _ hi', ha, hb⟩
        · rw [if_neg h2] at h
          obtain ⟨i', hi', ha, hb⟩ := ih _ _ found h
          exact ⟨i', List.mem_cons_of_mem _ hi', ha, hb⟩

/-- Full characterisation of a completed inner loop of the plain search:
the appended nodes are fresh, pairwise-distinct, one-step children of the
popped node, none of them is the target, and every routed child of the
popped node ends up visited. -/
lemma stepInputs_inr_spec (M : XMachine I O S Mem P) [DecidableEq S]
    (target s : S) (path : List I) :
    ∀ (rem : List I) (vis : List S) (acc : List (S × List I))
      (vis' : List S) (acc₂ : List (S × List I)),
      SxMTester.stepInputs M target s path rem vis acc = Sum.inr (vis', acc₂) →
      ∃ new : List (S × List I),
        acc₂ = acc ++ new ∧
        vis' = vis ++ new.map Prod.fst ∧
        (new.map Prod.fst).Nodup ∧
        (∀ x ∈ new, (∃ i ∈ rem, topoStep M s i = some x.1 ∧ x.2 = path ++ [i]) ∧
          x.1 ∉ vis ∧ x.1 ≠ target) ∧
        (∀ i ∈ rem, ∀ c, topoStep M s i = some c → c ≠ target ∧ c ∈ vis') := by
  intro rem
  induction rem with
  | nil =>
    intro vis acc vis' acc₂ h
    rw [SxMTester.stepInputs] at h
    obtain ⟨h1, h2⟩ : vis = vis' ∧ acc = acc₂ := by
      have h' := Sum.inr.inj h
      exact ⟨congrArg Prod.fst h', congrArg Prod.snd h'⟩
    subst h1
    subst h2
    exact ⟨[], by simp, by simp, List.nodup_nil, by simp, by simp⟩
  | cons i rem ih =>
    intro vis acc vis' acc₂ h
    rw [SxMTester.stepInputs] at h
    cases hstep : topoStep M s i with
    | none =>
      simp only [hstep] at h
      obtain ⟨new, e1, e2, nd, hx, hrem⟩ := ih vis acc vis' acc₂ h
      refine ⟨new, e1, e2, nd, ?_, ?_⟩
      · intro x hxm
        obtain ⟨⟨i', hi', ha, hb⟩, hc, hd⟩ := hx x hxm
        exact ⟨⟨i', List.mem_cons_of_mem _ hi', ha, hb⟩, hc, hd⟩
      · intro i'' hi'' c hc
        rcases List.mem_cons.mp hi'' with rfl | hi''
        · rw [hstep] at hc; exact absurd hc (by simp)
        · exact hrem i'' hi'' c hc
    | some ns =>
      simp only [hstep] at h
      by_cases h1 : ns = target
      · rw [if_pos h1] at h
        exact absurd h (by simp)
      · rw [if_neg h1] at h
        by_cases h2 : ns ∈ vis
        · rw [if_pos h2] at h
          obtain ⟨new, e1, e2, nd, hx, hrem⟩ := ih vis acc vis' acc₂ h
          refine ⟨new, e1, e2, nd, ?_, ?_⟩
          · intro x hxm
            obtain ⟨⟨i', hi', ha, hb⟩, hc, hd⟩ := hx x hxm
            exact ⟨⟨i', List.mem_cons_of_mem _ hi', ha, hb⟩, hc, hd⟩
          · intro i'' hi'' c hc
            rcases List.mem_cons.mp hi'' with rfl | hi''
            · rw [hstep] at hc
              have : ns = c := Option.some.inj hc
              subst this
              exact ⟨h1, e2 ▸ List.mem_append_left _ h2⟩
            · exact hrem i'' hi'' c hc
        · rw [if_neg h2] at h
          obtain ⟨new', e1, e2, nd, hx, hrem⟩ := ih (vis ++ [ns])
            (acc ++ [(ns, path ++ [i])]) vis' acc₂ h
          refine ⟨(ns, path ++ [i]) :: new', ?_, ?_, ?_, ?_, ?_⟩
          · rw [e1]; simp
          · rw [e2]; simp
          · rw [List.map_cons, List.nodup_cons]
            refine ⟨?_, nd⟩
            intro hmem
            obtain ⟨x, hxm, hx1⟩ := List.mem_map.mp hmem
            obtain ⟨_, hc, _⟩ := hx x hxm
            exact hc (hx1 ▸ List.mem_append_right _ (List.mem_singleton.mpr rfl))
          · intro x hxm
            rcases List.mem_cons.mp hxm with rfl | hxm
            · exact ⟨⟨i, List.mem_cons_self _ _, hstep, rfl⟩, h2, h1⟩
            · obtain ⟨⟨i', hi', ha, hb⟩, hc, hd⟩ := hx x hxm
              refine ⟨⟨i', List.mem_cons_of_mem _ hi', ha, hb⟩, ?_, hd⟩
              intro hmem
              exact hc (List.mem_append_left _ hmem)
          · intro i'' hi'' c hc
            rcases List.mem_cons.mp hi'' with rfl | hi''
            · rw [hstep] at hc
              have : ns = c := Option.some.inj hc
              subst this
              refine ⟨h1, ?_⟩
              rw [e2]
              exact List.mem_append_left _
                (List.mem_append_right _ (List.mem_singleton.mpr rfl))
            · exact hrem i'' hi'' c hc

/-- The seeding loop, when it does not return early, enqueues exactly the
initial states with empty paths, marks them visited, and none of them is
the target. -/
lemma seedAux_inr_spec [DecidableEq S] (target : S) :
    ∀ (seeds : List S) (q : List (S × List I)) (vis : List S)
      (q' : List (S × List I)) (vis' : List S),
      SxMTester.seedAux target seeds q vis = Sum.inr (q', vis') →
      q' = q ++ seeds.map (fun s => (s, ([] : List I))) ∧
      vis' = vis ++ seeds ∧ (∀ s ∈ seeds, s ≠ target) := by
  intro seeds
  induction seeds with
  | nil =>
    intro q vis q' vis' h
    rw [SxMTester.seedAux] at h
    obtain ⟨h1, h2⟩ : q = q' ∧ vis = vis' := by
      have h' := Sum.inr.inj h
      exact ⟨congrArg Prod.fst h', congrArg Prod.snd h'⟩
    subst h1
    subst h2
    exact ⟨by simp, by simp, by simp⟩
  | cons s seeds ih =>
    intro q vis q' vis' h
    rw [SxMTester.seedAux] at h
    by_cases hs : s = target
    · rw [if_pos hs] at h
      exact absurd h (by simp)
    · rw [if_neg hs] at h
      obtain ⟨e1, e2, hall⟩ := ih (q ++ [(s, [])]) (vis ++ [s]) q' vis' h
      refine ⟨by rw [e1]; simp, by rw [e2]; simp, ?_⟩
      intro s' hs'
      rcases List.mem_cons.mp hs' with rfl | hs'
      · exact hs
      · exact hall s' hs'

/-- The seeding loop returns early only when the target is an initial
state. -/
lemma seedAux_inl_spec [DecidableEq S] (target : S) :
    ∀ (seeds : List S) (q : List (S × List I)) (vis : List S),
      SxMTester.seedAux target seeds q vis = Sum.inl () → target ∈ seeds := by
  intro seeds
  induction seeds with
  | nil => intro q vis h; simp [SxMTester.seedAux] at h
  | cons s seeds ih =>
    intro q vis h
    rw [SxMTester.seedAux] at h
    by_cases hs : s = target
    · exact hs ▸ List.mem_cons_self _ _
    · rw [if_neg hs] at h
      exact List.mem_cons_of_mem _ (ih _ _ h)

/-- A visited state has been fully expanded: each routed child is not the
target (else the search would have returned) and is itself visited. -/
def Expanded (M : XMachine I O S Mem P) (target : S) (V : List S) (v : S) :
    Prop :=
  ∀ i ∈ M.all_inputs, ∀ c, topoStep M v i = some c → c ≠ target ∧ c ∈ V

/-- Certificate carried by every visited state: a minimum-length valid path
to it whose node is still queued, or the state is fully expanded. -/
def VCert (M : XMachine I O S Mem P) (target : S) (Q : List (S × List I))
    (V : List S) (v : S) : Prop :=
  ∃ pv, (∃ s₀, ValidPath M s₀ pv v) ∧
    (∀ s₀' q, ValidPath M s₀' q v → pv.length ≤ q.length) ∧
    ((v, pv) ∈ Q ∨ Expanded M target V v)

/-- The grand invariant of the plain search loop: queued nodes are valid,
visited non-target enumerated states; the target is unvisited; all initial
states are visited; queue path lengths are sorted and within one of each
other; and every visited state carries a certificate. -/
def BfsInv (M : XMachine I O S Mem P) (target : S) (Q : List (S × List I))
    (V : List S) : Prop :=
  (∀ x ∈ Q, ∃ s₀, ValidPath M s₀ x.2 x.1) ∧
  (∀ x ∈ Q, x.1 ∈ V ∧ x.1 ≠ target ∧ x.1 ∈ M.all_states) ∧
  target ∉ V ∧
  (∀ s₀ ∈ M.initial_states, s₀ ∈ V) ∧
  List.Pairwise (fun a b => a.2.length ≤ b.2.length) Q ∧
  (∀ a ∈ Q, ∀ b ∈ Q, a.2.length ≤ b.2.length + 1) ∧
  (∀ v ∈ V, VCert M target Q V v)

/-- A relation holding for every pair drawn from a list is pairwise on it. -/
lemma pairwiseOfMemRel {α : Type} {R : α → α → Prop} :
    ∀ (l : List α), (∀ a ∈ l, ∀ b ∈ l, R a b) → List.Pairwise R l := by
  intro l
  induction l with
  | nil => intro _; exact List.Pairwise.nil
  | cons a l ih =>
    intro h
    refine List.Pairwise.cons ?_ (ih ?_)
    · intro b hb
      exact h a (List.mem_cons_self _ _) b (List.mem_cons_of_mem _ hb)
    · intro a' ha' b hb
      exact h a' (List.mem_cons_of_mem _ ha') b (List.mem_cons_of_mem _ hb)

/-- Discovery lemma: while a node with path `path` heads the queue, every
state reachable by a valid path no longer than `path` is already visited.
In particular (with the target-unvisited invariant) no valid path to the
target of length at most `path.length` exists. -/
lemma bfs_discovered (M : XMachine I O S Mem P) (target : S) (s : S)
    (path : List I) (rest : List (S × List I)) (vis : List S)
    (hInv : BfsInv M target ((s, path) :: rest) vis) :
    ∀ (q : List I) (u s₀ : S), ValidPath M s₀ q u → q.length ≤ path.length →
      u ∈ vis := by
  intro q
  induction q using List.reverseRecOn with
  | nil =>
    intro u s₀ hv _
    obtain ⟨hmem, _, hrun⟩ := hv
    have he : s₀ = u := by simpa [topoRun] using hrun
    exact he ▸ hInv.2.2.2.1 s₀ hmem
  | append_singleton q' i ih =>
    intro u s₀ hv hlen
    obtain ⟨hmem, hinp, hrun⟩ := hv
    rw [topoRun_concat] at hrun
    cases hprev : topoRun M s₀ q' with
    | none => rw [hprev] at hrun; simp at hrun
    | some u' =>
      rw [hprev] at hrun
      simp only [Option.some_bind] at hrun
      have hq1 : q'.length + 1 ≤ path.length := by
        simpa using hlen
      have hvalid' : ValidPath M s₀ q' u' :=
        ⟨hmem, fun j hj => hinp j (List.mem_append_left _ hj), hprev⟩
      have hu' : u' ∈ vis := ih u' s₀ hvalid' (by omega)
      obtain ⟨pv, _, hmin, hcert⟩ := hInv.2.2.2.2.2.2 u' hu'
      have hpv : pv.length ≤ q'.length := hmin s₀ q' hvalid'
      rcases hcert with hin | hexp
      · exfalso
        have hge : path.length ≤ pv.length := by
          rcases List.mem_cons.mp hin with heq | hin
          · have he : pv = path := congrArg Prod.snd heq
            rw [he]
          · exact (List.pairwise_cons.mp hInv.2.2.2.2.1).1 (u', pv) hin
        omega
      · have hiin : i ∈ M.all_inputs :=
          hinp i (List.mem_append_right _ (List.mem_singleton.mpr rfl))
        exact (hexp i hiin u hrun).2

/-- Completeness at queue exhaustion: with an empty queue every reachable
state is visited. -/
lemma bfs_empty_complete (M : XMachine I O S Mem P) (target : S)
    (vis : List S) (hInv : BfsInv M target [] vis) :
    ∀ (q : List I) (u s₀ : S), ValidPath M s₀ q u → u ∈ vis := by
  intro q
  induction q using List.reverseRecOn with
  | nil =>
    intro u s₀ hv
    obtain ⟨hmem, _, hrun⟩ := hv
    have he : s₀ = u := by simpa [topoRun] using hrun
    exact he ▸ hInv.2.2.2.1 s₀ hmem
  | append_singleton q' i ih =>
    intro u s₀ hv
    obtain ⟨hmem, hinp, hrun⟩ := hv
    rw [topoRun_concat] at hrun
    cases hprev : topoRun M s₀ q' with
    | none => rw [hprev] at hrun; simp at hrun
    | some u' =>
      rw [hprev] at hrun
      simp only [Option.some_bind] at hrun
      have hvalid' : ValidPath M s₀ q' u' :=
        ⟨hmem, fun j hj => hinp j (List.mem_append_left _ hj), hprev⟩
      have hu' : u' ∈ vis := ih u' s₀ hvalid'
      obtain ⟨pv, _, _, hcert⟩ := hInv.2.2.2.2.2.2 u' hu'
      rcases hcert with hin | hexp
      · simp at hin
      · have hiin : i ∈ M.all_inputs :=
          hinp i (List.mem_append_right _ (List.mem_singleton.mpr rfl))
        exact (hexp i hiin u hrun).2

/-- The invariant holds for the freshly seeded queue and visited list. -/
lemma bfsInv_seed (M : XMachine I O S Mem P) [DecidableEq S] (target : S)
    (hC : ClosedMachine M) (hne : ∀ s ∈ M.initial_states, s ≠ target) :
    BfsInv M target (M.initial_states.map (fun s => (s, ([] : List I))))
      M.initial_states := by
  refine ⟨?_, ?_, ?_, fun s₀ h => h, ?_, ?_, ?_⟩
  · intro x hx
    obtain ⟨s₀, hs₀, rfl⟩ := List.mem_map.mp hx
    exact ⟨s₀, hs₀, by simp, by simp [topoRun]⟩
  · intro x hx
    obtain ⟨s₀, hs₀, rfl⟩ := List.mem_map.mp hx
    exact ⟨hs₀, hne s₀ hs₀, hC.1 s₀ hs₀⟩
  · intro hmem
    exact hne target hmem rfl
  · rw [List.pairwise_map]
    exact pairwiseOfMemRel _ (fun a _ b _ => Nat.le_refl 0)
  · intro a ha b hb
    obtain ⟨_, _, rfl⟩ := List.mem_map.mp ha
    simp
  · intro v hv
    refine ⟨[], ⟨v, hv, by simp, by simp [topoRun]⟩, ?_, Or.inl ?_⟩
    · intro s₀' q _
      simp
    · exact List.mem_map.mpr ⟨v, hv, rfl⟩

/-- Maintenance of the plain-search invariant across one pop-and-expand
step, together with the facts needed by the termination measure. -/
lemma bfsInv_step (M : XMachine I O S Mem P) [DecidableEq S] (target : S)
    (hC : ClosedMachine M) (s : S) (path : List I)
    (rest : List (S × List I)) (vis vis' : List S)
    (newNodes : List (S × List I))
    (hInv : BfsInv M target ((s, path) :: rest) vis)
    (hstep : SxMTester.stepInputs M target s path M.all_inputs vis [] =
      Sum.inr (vis', newNodes)) :
    BfsInv M target (rest ++ newNodes) vis' ∧
    vis' = vis ++ newNodes.map Prod.fst ∧
    (newNodes.map Prod.fst).Nodup ∧
    (∀ c ∈ newNodes.map Prod.fst, c ∈ M.all_states ∧ c ∉ vis) := by
  obtain ⟨new, e1, e2, nd, hx, hrem⟩ :=
    stepInputs_inr_spec M target s path M.all_inputs vis [] vis' newNodes hstep
  have enew : new = newNodes := by rw [e1]; simp
  subst enew
  obtain ⟨hN1, hN2, hN3, hN4, hN5a, hN5b, hN6⟩ := hInv
  obtain ⟨s₀h, hheadValid⟩ := hN1 (s, path) (List.mem_cons_self _ _)
  obtain ⟨hheadVis, hheadNe, hheadAll⟩ := hN2 (s, path) (List.mem_cons_self _ _)
  obtain ⟨hs₀mem, hheadInp, hheadRun⟩ := hheadValid
  have hchildValid : ∀ x ∈ new, ValidPath M s₀h x.2 x.1 := by
    intro x hxm
    obtain ⟨⟨i, hiin, hstepx, hpathx⟩, _, _⟩ := hx x hxm
    rw [hpathx]
    refine ⟨hs₀mem, ?_, ?_⟩
    · intro j hj
      rcases List.mem_append.mp hj with hj | hj
      · exact hheadInp j hj
      · exact (List.mem_singleton.mp hj) ▸ hiin
    · rw [topoRun_concat, hheadRun]
      simpa using hstepx
  have hchildAll : ∀ x ∈ new, x.1 ∈ M.all_states := by
    intro x hxm
    obtain ⟨⟨i, hiin, hstepx, _⟩, _, _⟩ := hx x hxm
    exact ClosedMachine.step_mem M hC hheadAll hiin hstepx
  have hchildLen : ∀ x ∈ new, x.2.length = path.length + 1 := by
    intro x hxm
    obtain ⟨⟨i, _, _, hpathx⟩, _, _⟩ := hx x hxm
    rw [hpathx]
    simp
  have hvisSub : ∀ c ∈ vis, c ∈ vis' := by
    intro c hc
    rw [e2]
    exact List.mem_append_left _ hc
  refine ⟨⟨?_, ?_, ?_, ?_, ?_, ?_, ?_⟩, e2, nd, ?_⟩
  · intro x hxm
    rcases List.mem_append.mp hxm with hxm | hxm
    · exact hN1 x (List.mem_cons_of_mem _ hxm)
    · exact ⟨s₀h, hchildValid x hxm⟩
  · intro x hxm
    rcases List.mem_append.mp hxm with hxm | hxm
    · obtain ⟨ha, hb, hc⟩ := hN2 x (List.mem_cons_of_mem _ hxm)
      exact ⟨hvisSub _ ha, hb, hc⟩
    · obtain ⟨_, _, hnt⟩ := hx x hxm
      refine ⟨?_, hnt, hchildAll x hxm⟩
      rw [e2]
      exact List.mem_append_right _ (List.mem_map.mpr ⟨x, hxm, rfl⟩)
  · rw [e2]
    intro hmem
    rcases List.mem_append.mp hmem with hmem | hmem
    · exact hN3 hmem
    · obtain ⟨x, hxm, hx1⟩ := List.mem_map.mp hmem
      obtain ⟨_, _, hnt⟩ := hx x hxm
      exact hnt hx1
  · intro s₀ h
    exact hvisSub _ (hN4 s₀ h)
  · rw [List.pairwise_append]
    refine ⟨(List.pairwise_cons.mp hN5a).2, ?_, ?_⟩
    · refine pairwiseOfMemRel _ ?_
      intro a ha b hb
      rw [hchildLen a ha, hchildLen b hb]
    · intro a ha b hb
      rw [hchildLen b hb]
      have hle : a.2.length ≤ path.length + 1 :=
        hN5b a (List.mem_cons_of_mem _ ha) (s, path) (List.mem_cons_self _ _)
      exact hle
  · intro a ha b hb
    rcases List.mem_append.mp ha with ha | ha <;>
      rcases List.mem_append.mp hb with hb | hb
    · exact hN5b a (List.mem_cons_of_mem _ ha) b (List.mem_cons_of_mem _ hb)
    · rw [hchildLen b hb]
      have hle : a.2.length ≤ path.length + 1 :=
        hN5b a (List.mem_cons_of_mem _ ha) (s, path) (List.mem_cons_self _ _)
      omega
    · rw [hchildLen a ha]
      have hle : path.length ≤ b.2.length :=
        (List.pairwise_cons.mp hN5a).1 b hb
      omega
    · rw [hchildLen a ha, hchildLen b hb]
      omega
  · intro v hv
    rw [e2] at hv
    rcases List.mem_append.mp hv with hv | hv
    · obtain ⟨pv, hval, hmin, hcert⟩ := hN6 v hv
      rcases hcert with hin | hexp
      · rcases List.mem_cons.mp hin with heq | hin
        · have hv_s : v = s := congrArg Prod.fst heq
          subst hv_s
          refine ⟨pv, hval, hmin, Or.inr ?_⟩
          intro i hiin c hstepc
          obtain ⟨hne, hcv⟩ := hrem i hiin c hstepc
          exact ⟨hne, hcv⟩
        · exact ⟨pv, hval, hmin, Or.inl (List.mem_append_left _ hin)⟩
      · refine ⟨pv, hval, hmin, Or.inr ?_⟩
        intro i hiin c hstepc
        obtain ⟨hne, hcv⟩ := hexp i hiin c hstepc
        exact ⟨hne, hvisSub _ hcv⟩
    · obtain ⟨x, hxm, hx1⟩ := List.mem_map.mp hv
      subst hx1
      refine ⟨x.2, ⟨s₀h, hchildValid x hxm⟩, ?_, Or.inl ?_⟩
      · intro s₀' q hq
        by_contra hlt
        push_neg at hlt
        have hqle : q.length ≤ path.length := by
          have := hchildLen x hxm
          omega
        have : x.1 ∈ vis :=
          bfs_discovered M target s path rest vis
            ⟨hN1, hN2, hN3, hN4, hN5a, hN5b, hN6⟩ q x.1 s₀' hq hqle
        obtain ⟨_, hnv, _⟩ := hx x hxm
        exact hnv this
      · exact List.mem_append_right _ hxm
  · intro c hc
    obtain ⟨x, hxm, hx1⟩ := List.mem_map.mp hc
    obtain ⟨_, hnv, _⟩ := hx x hxm
    exact ⟨hx1 ▸ hchildAll x hxm, hx1 ▸ hnv⟩

/-- Termination of the pop loop: with fuel exceeding the measure (queue
length plus unvisited enumerated states) the loop never exhausts its fuel. -/
lemma bfsAux_total (M : XMachine I O S Mem P) [DecidableEq S] (target : S)
    (hC : ClosedMachine M) :
    ∀ (fuel : Nat) (Q : List (S × List I)) (V : List S),
      BfsInv M target Q V → Q.length + countUnvisited M V < fuel →
      (SxMTester.bfsAux M target fuel Q V).isSome := by
  intro fuel
  induction fuel with
  | zero => intro Q V _ hlt; omega
  | succ fuel ih =>
    intro Q V hInv hlt
    cases Q with
    | nil => simp [SxMTester.bfsAux]
    | cons head rest =>
      cases head with
      | mk s path =>
        rw [SxMTester.bfsAux]
        cases hs : SxMTester.stepInputs M target s path M.all_inputs V [] with
        | inl found => simp
        | inr out =>
          cases out with
          | mk vis' newNodes =>
            obtain ⟨hInv', e2, nd, hfresh⟩ :=
              bfsInv_step M target hC s path rest V vis' newNodes hInv hs
            refine ih (rest ++ newNodes) vis' hInv' ?_
            have hcount : countUnvisited M vis' +
                (newNodes.map Prod.fst).length ≤ countUnvisited M V := by
              rw [e2]
              exact countUnvisited_append M (newNodes.map Prod.fst) V
                (fun c hc => (hfresh c hc).1) nd (fun c hc => (hfresh c hc).2)
            have hlen : (rest ++ newNodes).length =
                rest.length + newNodes.length := List.length_append _ _
            have hmap : (newNodes.map Prod.fst).length = newNodes.length :=
              List.length_map _ _
            simp only [List.length_cons] at hlt
            omega

/-- Soundness and length-minimality of a successful plain search from an
invariant-satisfying configuration. -/
lemma bfsAux_sound_min (M : XMachine I O S Mem P) [DecidableEq S] (target : S)
    (hC : ClosedMachine M) :
    ∀ (fuel : Nat) (Q : List (S × List I)) (V : List S) (p : List I),
      BfsInv M target Q V →
      SxMTester.bfsAux M target fuel Q V = some (some p) →
      (∃ s₀, ValidPath M s₀ p target) ∧
      (∀ s₀' q, ValidPath M s₀' q target → p.length ≤ q.length) := by
  intro fuel
  induction fuel with
  | zero => intro Q V p _ h; simp [SxMTester.bfsAux] at h
  | succ fuel ih =>
    intro Q V p hInv h
    cases Q with
    | nil =>
      rw [SxMTester.bfsAux] at h
      exact absurd (Option.some.inj h) (by simp)
    | cons head rest =>
      cases head with
      | mk s path =>
        rw [SxMTester.bfsAux] at h
        cases hs : SxMTester.stepInputs M target s path M.all_inputs V [] with
        | inl found =>
          rw [hs] at h
          have hfp : found = p := Option.some.inj (Option.some.inj h)
          subst hfp
          obtain ⟨i, hiin, hstepi, hfound⟩ :=
            stepInputs_inl_spec M target s path M.all_inputs V [] found hs
          subst hfound
          obtain ⟨s₀h, hs₀mem, hheadInp, hheadRun⟩ :=
            hInv.1 (s, path) (List.mem_cons_self _ _)
          refine ⟨⟨s₀h, hs₀mem, ?_, ?_⟩, ?_⟩
          · intro j hj
            rcases List.mem_append.mp hj with hj | hj
            · exact hheadInp j hj
            · exact (List.mem_singleton.mp hj) ▸ hiin
          · rw [topoRun_concat, hheadRun]
            simpa using hstepi
          · intro s₀' q hq
            by_contra hlt
            push_neg at hlt
            have hqle : q.length ≤ path.length := by
              simp only [List.length_append, List.length_cons,
                List.length_nil] at hlt
              omega
            have : target ∈ V :=
              bfs_discovered M target s path rest V hInv q target s₀' hq hqle
            exact hInv.2.2.1 this
        | inr out =>
          rw [hs] at h
          cases out with
          | mk vis' newNodes =>
            obtain ⟨hInv', _, _, _⟩ :=
              bfsInv_step M target hC s path rest V vis' newNodes hInv hs
            exact ih (rest ++ newNodes) vis' p hInv' h

/-- Completeness of an exhausted plain search from an invariant-satisfying
configuration: if the loop ends with an empty queue, no state valid path
reaches the target. -/
lemma bfsAux_none_complete (M : XMachine I O S Mem P) [DecidableEq S]
    (target : S) (hC : ClosedMachine M) :
    ∀ (fuel : Nat) (Q : List (S × List I)) (V : List S),
      BfsInv M target Q V →
      SxMTester.bfsAux M target fuel Q V = some none →
      ∀ s₀ q, ¬ ValidPath M s₀ q target := by
  intro fuel
  induction fuel with
  | zero => intro Q V _ h; simp [SxMTester.bfsAux] at h
  | succ fuel ih =>
    intro Q V hInv h
    cases Q with
    | nil =>
      intro s₀ q hq
      have : target ∈ V := bfs_empty_complete M target V hInv q target s₀ hq
      exact hInv.2.2.1 this
    | cons head rest =>
      cases head with
      | mk s path =>
        rw [SxMTester.bfsAux] at h
        cases hs : SxMTester.stepInputs M target s path M.all_inputs V [] with
        | inl found =>
          rw [hs] at h
          exact absurd (Option.some.inj h) (by simp)
        | inr out =>
          rw [hs] at h
          cases out with
          | mk vis' newNodes =>
            obtain ⟨hInv', _, _, _⟩ :=
              bfsInv_step M target hC s path rest V vis' newNodes hInv hs
            exact ih (rest ++ newNodes) vis' hInv' h

/-- C2: for a machine whose enumerations satisfy the contract (all initial
states listed, `all_states` closed under routed transitions), the plain
search terminates within its fuel; a returned path is a valid path from
some initial state of minimal length among all valid paths to the target;
and it returns `none` exactly when no valid path reaches the target. -/
theorem find_path_to_state_correct (M : XMachine I O S Mem P) [DecidableEq S]
    (target : S) (hC : ClosedMachine M) :
    (SxMTester.find_path_raw M target).isSome ∧
    (∀ p, SxMTester.find_path_to_state M target = some p →
      (∃ s₀, ValidPath M s₀ p target) ∧
      (∀ s₀' q, ValidPath M s₀' q target → p.length ≤ q.length)) ∧
    (SxMTester.find_path_to_state M target = none ↔
      ∀ s₀ q, ¬ ValidPath M s₀ q target) := by
  have hbody : ∀ (q₀ : List (S × List I)) (v₀ : List S),
      SxMTester.seedAux target M.initial_states [] [] = Sum.inr (q₀, v₀) →
      BfsInv M target q₀ v₀ ∧
      q₀.length + countUnvisited M v₀ < SxMTester.bfsFuel M := by
    intro q₀ v₀ hseed
    obtain ⟨e1, e2, hne⟩ := seedAux_inr_spec target M.initial_states [] [] q₀
      v₀ hseed
    simp only [List.nil_append] at e1 e2
    subst e1
    subst e2
    refine ⟨bfsInv_seed M target hC hne, ?_⟩
    have h1 : (M.initial_states.map
        (fun s => (s, ([] : List I)))).length = M.initial_states.length :=
      List.length_map _ _
    have h2 : countUnvisited M M.initial_states ≤ M.all_states.length :=
      countUnvisited_le M M.initial_states
    rw [SxMTester.bfsFuel]
    omega
  have hsound : ∀ p, SxMTester.find_path_to_state M target = some p →
      (∃ s₀, ValidPath M s₀ p target) ∧
      (∀ s₀' q, ValidPath M s₀' q target → p.length ≤ q.length) := by
    intro p hp
    rw [SxMTester.find_path_to_state, SxMTester.find_path_raw] at hp
    cases hseed : SxMTester.seedAux target M.initial_states [] [] with
    | inl u =>
      rw [hseed] at hp
      replace hp : (some (some ([] : List I))).join = some p := hp
      have hpe : p = [] := by simpa [Option.join] using hp.symm
      subst hpe
      have htmem : target ∈ M.initial_states :=
        seedAux_inl_spec target M.initial_states
          (I := I) [] [] (by cases u; exact hseed)
      exact ⟨⟨target, htmem, by simp, by simp [topoRun]⟩,
        fun s₀' q _ => by simp⟩
    | inr out =>
      cases out with
      | mk q₀ v₀ =>
        rw [hseed] at hp
        replace hp :
            (SxMTester.bfsAux M target (SxMTester.bfsFuel M) q₀ v₀).join =
              some p := hp
        obtain ⟨hInv, _⟩ := hbody q₀ v₀ hseed
        cases hraw : SxMTester.bfsAux M target (SxMTester.bfsFuel M) q₀ v₀ with
        | none => rw [hraw] at hp; simp [Option.join] at hp
        | some r =>
          rw [hraw] at hp
          cases r with
          | none => simp [Option.join] at hp
          | some p' =>
            have hpe : p' = p := by simpa [Option.join] using hp
            subst hpe
            exact bfsAux_sound_min M target hC (SxMTester.bfsFuel M) q₀ v₀ p'
              hInv hraw
  refine ⟨?_, hsound, ?_⟩
  · rw [SxMTester.find_path_raw]
    cases hseed : SxMTester.seedAux target M.initial_states [] [] with
    | inl u => simp
    | inr out =>
      cases out with
      | mk q₀ v₀ =>
        obtain ⟨hInv, hlt⟩ := hbody q₀ v₀ hseed
        exact bfsAux_total M target hC (SxMTester.bfsFuel M) q₀ v₀ hInv hlt
  · constructor
    · intro hnone s₀ q hq
      rw [SxMTester.find_path_to_state, SxMTester.find_path_raw] at hnone
      cases hseed : SxMTester.seedAux target M.initial_states [] [] with
      | inl u =>
        rw [hseed] at hnone
        replace hnone : (some (some ([] : List I))).join = none := hnone
        simp [Option.join] at hnone
      | inr out =>
        cases out with
        | mk q₀ v₀ =>
          rw [hseed] at hnone
          replace hnone :
              (SxMTester.bfsAux M target (SxMTester.bfsFuel M) q₀ v₀).join =
                none := hnone
          obtain ⟨hInv, hlt⟩ := hbody q₀ v₀ hseed
          cases hraw : SxMTester.bfsAux M target (SxMTester.bfsFuel M)
              q₀ v₀ with
          | none =>
            have := bfsAux_total M target hC (SxMTester.bfsFuel M) q₀ v₀
              hInv hlt
            rw [hraw] at this
            simp at this
          | some r =>
            rw [hraw] at hnone
            cases r with
            | none =>
              exact bfsAux_none_complete M target hC (SxMTester.bfsFuel M)
                q₀ v₀ hInv hraw s₀ q hq
            | some p' => simp [Option.join] at hnone
    · intro hunreach
      cases hfind : SxMTester.find_path_to_state M target with
      | none => rfl
      | some p =>
        exfalso
        obtain ⟨s₀, hs₀⟩ := (hsound p hfind).1
        exact hunreach s₀ p hs₀

/-- Witness for C2 on the Digicode machine and the `CodeEntered` target. -/
theorem find_path_to_state_correct_witness :
    (SxMTester.find_path_raw Digicode .CodeEntered).isSome ∧
    (∀ p, SxMTester.find_path_to_state Digicode .CodeEntered = some p →
      (∃ s₀, ValidPath Digicode s₀ p .CodeEntered) ∧
      (∀ s₀' q, ValidPath Digicode s₀' q .CodeEntered →
        p.length ≤ q.length)) ∧
    (SxMTester.find_path_to_state Digicode .CodeEntered = none ↔
      ∀ s₀ q, ¬ ValidPath Digicode s₀ q .CodeEntered) :=
  find_path_to_state_correct Digicode .CodeEntered (by decide)

end PlainSearch

/-! ## Tie-breaking of the plain search (claim C8) -/

section TieBreak

variable {I O S Mem P : Type}

/-- Counterexample to C8 as stated: on `MTie` there are two shortest paths
of length one to `T` — input `x` (enumerated first) from initial state `B`
(enumerated second) and input `y` (enumerated second) from initial state `A`
(enumerated first) — and the search returns `[y]`, preferring the earlier
initial state, not `[x]` as input-first tie-breaking would select. -/
theorem tie_preference_counterexample :
    SxMTester.find_path_to_state MTie .T = some [.y] ∧
    ValidPath MTie .B [.x] .T ∧
    ValidPath MTie .A [.y] .T ∧
    idxOf TIn.x MTie.all_inputs < idxOf TIn.y MTie.all_inputs ∧
    TState.T ∉ MTie.initial_states := by
  refine ⟨by decide, ⟨by decide, ?_, by decide⟩, ⟨by decide, ?_, by decide⟩,
    by decide, by decide⟩
  · intro i hi
    rcases List.mem_singleton.mp hi with rfl
    decide
  · intro i hi
    rcases List.mem_singleton.mp hi with rfl
    decide

end TieBreak

section TieBreakOrder

variable {I O S Mem P : Type}

/-- Strict lexicographic order on index lists. -/
def listLexLt : List Nat → List Nat → Prop
  | [], [] => False
  | [], _ :: _ => True
  | _ :: _, [] => False
  | a :: as, b :: bs => a < b ∨ (a = b ∧ listLexLt as bs)

/-- Strict lexicographic order on search keys
(length, initial-state index, input index list). -/
def keyLt (k₁ k₂ : Nat × Nat × List Nat) : Prop :=
  k₁.1 < k₂.1 ∨ (k₁.1 = k₂.1 ∧
    (k₁.2.1 < k₂.2.1 ∨ (k₁.2.1 = k₂.2.1 ∧ listLexLt k₁.2.2 k₂.2.2)))

/-- Reflexive closure of `keyLt`. -/
def keyLe (k₁ k₂ : Nat × Nat × List Nat) : Prop :=
  keyLt k₁ k₂ ∨ k₁ = k₂

/-- Lexicographic trichotomy for index lists. -/
lemma listLexLt_trichotomy : ∀ (as bs : List Nat),
    listLexLt as bs ∨ as = bs ∨ listLexLt bs as := by
  intro as
  induction as with
  | nil =>
    intro bs
    cases bs with
    | nil => exact Or.inr (Or.inl rfl)
    | cons b bs => exact Or.inl trivial
  | cons a as ih =>
    intro bs
    cases bs with
    | nil => exact Or.inr (Or.inr trivial)
    | cons b bs =>
      rcases Nat.lt_trichotomy a b with h | h | h
      · exact Or.inl (Or.inl h)
      · rcases ih bs with h' | h' | h'
        · exact Or.inl (Or.inr ⟨h, h'⟩)
        · exact Or.inr (Or.inl (by rw [h, h']))
        · exact Or.inr (Or.inr (Or.inr ⟨h.symm, h'⟩))
      · exact Or.inr (Or.inr (Or.inl h))

/-- Lexicographic order on index lists is irreflexive. -/
lemma listLexLt_irrefl : ∀ as : List Nat, ¬ listLexLt as as := by
  intro as
  induction as with
  | nil => intro h; exact h
  | cons a as ih =>
    rintro (h | ⟨_, h⟩)
    · omega
    · exact ih h

/-- Lexicographic order on index lists is transitive. -/
lemma listLexLt_trans : ∀ (as bs cs : List Nat),
    listLexLt as bs → listLexLt bs cs → listLexLt as cs := by
  intro as
  induction as with
  | nil =>
    intro bs cs h1 h2
    cases bs with
    | nil => exact absurd h1 (by simp [listLexLt])
    | cons b bs =>
      cases cs with
      | nil => exact absurd h2 (by simp [listLexLt])
      | cons c cs => exact trivial
  | cons a as ih =>
    intro bs cs h1 h2
    cases bs with
    | nil => exact absurd h1 (by simp [listLexLt])
    | cons b bs =>
      cases cs with
      | nil => exact absurd h2 (by simp [listLexLt])
      | cons c cs =>
        rcases h1 with h1 | ⟨e1, h1⟩ <;> rcases h2 with h2 | ⟨e2, h2⟩
        · exact Or.inl (by omega)
        · exact Or.inl (by omega)
        · exact Or.inl (by omega)
        · exact Or.inr ⟨by omega, ih bs cs h1 h2⟩

/-- Appending to equal-length lists preserves strict lexicographic order. -/
lemma listLexLt_append : ∀ (as bs as' bs' : List Nat),
    as.length = bs.length → listLexLt as bs →
    listLexLt (as ++ as') (bs ++ bs') := by
  intro as
  induction as with
  | nil =>
    intro bs as' bs' hlen h
    cases bs with
    | nil => exact absurd h (by simp [listLexLt])
    | cons b bs => simp at hlen
  | cons a as ih =>
    intro bs as' bs' hlen h
    cases bs with
    | nil => simp at hlen
    | cons b bs =>
      rcases h with h | ⟨e, h⟩
      · exact Or.inl h
      · refine Or.inr ⟨e, ?_⟩
        exact ih bs as' bs' (by simpa using hlen) h

/-- A proper extension of a list is lexicographically above it. -/
lemma listLexLt_self_append : ∀ (as : List Nat) (a : Nat) (bs : List Nat),
    listLexLt as (as ++ a :: bs) := by
  intro as
  induction as with
  | nil => intro a bs; exact trivial
  | cons x as ih => intro a bs; exact Or.inr ⟨rfl, ih a bs⟩

/-- `keyLt` is transitive. -/
lemma keyLt_trans {k₁ k₂ k₃ : Nat × Nat × List Nat} (h1 : keyLt k₁ k₂)
    (h2 : keyLt k₂ k₃) : keyLt k₁ k₃ := by
  rcases h1 with h1 | ⟨e1, h1⟩ <;> rcases h2 with h2 | ⟨e2, h2⟩
  · exact Or.inl (by omega)
  · exact Or.inl (by omega)
  · exact Or.inl (by omega)
  · refine Or.inr ⟨by omega, ?_⟩
    rcases h1 with h1 | ⟨f1, h1⟩ <;> rcases h2 with h2 | ⟨f2, h2⟩
    · exact Or.inl (by omega)
    · exact Or.inl (by omega)
    · exact Or.inl (by omega)
    · exact Or.inr ⟨by omega, listLexLt_trans _ _ _ h1 h2⟩

/-- `keyLt` is irreflexive. -/
lemma keyLt_irrefl (k : Nat × Nat × List Nat) : ¬ keyLt k k := by
  rintro (h | ⟨_, h | ⟨_, h⟩⟩)
  · omega
  · omega
  · exact listLexLt_irrefl _ h

/-- `keyLt` and `keyLe` compose. -/
lemma keyLt_of_le_of_lt {k₁ k₂ k₃ : Nat × Nat × List Nat} (h1 : keyLe k₁ k₂)
    (h2 : keyLt k₂ k₃) : keyLt k₁ k₃ := by
  rcases h1 with h1 | rfl
  · exact keyLt_trans h1 h2
  · exact h2

/-- `keyLe` and `keyLt` compose the other way. -/
lemma keyLt_of_lt_of_le {k₁ k₂ k₃ : Nat × Nat × List Nat} (h1 : keyLt k₁ k₂)
    (h2 : keyLe k₂ k₃) : keyLt k₁ k₃ := by
  rcases h2 with h2 | rfl
  · exact keyLt_trans h1 h2
  · exact h1

/-- `keyLe` is transitive. -/
lemma keyLe_trans {k₁ k₂ k₃ : Nat × Nat × List Nat} (h1 : keyLe k₁ k₂)
    (h2 : keyLe k₂ k₃) : keyLe k₁ k₃ := by
  rcases h2 with h2 | rfl
  · exact Or.inl (keyLt_of_le_of_lt h1 h2)
  · exact h1

/-- Trichotomy for keys. -/
lemma keyLt_trichotomy (k₁ k₂ : Nat × Nat × List Nat) :
    keyLt k₁ k₂ ∨ k₁ = k₂ ∨ keyLt k₂ k₁ := by
  obtain ⟨l₁, j₁, x₁⟩ := k₁
  obtain ⟨l₂, j₂, x₂⟩ := k₂
  rcases Nat.lt_trichotomy l₁ l₂ with h | h | h
  · exact Or.inl (Or.inl h)
  · rcases Nat.lt_trichotomy j₁ j₂ with h' | h' | h'
    · exact Or.inl (Or.inr ⟨h, Or.inl h'⟩)
    · rcases listLexLt_trichotomy x₁ x₂ with h'' | h'' | h''
      · exact Or.inl (Or.inr ⟨h, Or.inr ⟨h', h''⟩⟩)
      · exact Or.inr (Or.inl (by rw [h, h', h'']))
      · exact Or.inr (Or.inr (Or.inr ⟨h.symm, Or.inr ⟨h'.symm, h''⟩⟩))
    · exact Or.inr (Or.inr (Or.inr ⟨h.symm, Or.inl h'⟩))
  · exact Or.inr (Or.inr (Or.inl h))

/-- `keyLt` is asymmetric. -/
lemma keyLt_asymm {k₁ k₂ : Nat × Nat × List Nat} (h : keyLt k₁ k₂) :
    ¬ keyLt k₂ k₁ := by
  intro h'
  exact keyLt_irrefl k₁ (keyLt_trans h h')

end TieBreakOrder

section TieBreakIdx

variable {I O S Mem P : Type}

/-- First index satisfying a decidable predicate (the list length when no
element satisfies it). -/
def findIdxP {α : Type} (p : α → Prop) [DecidablePred p] : List α → Nat
  | [] => 0
  | a :: rest => if p a then 0 else findIdxP p rest + 1

/-- `idxOf` is `findIdxP` of equality. -/
lemma idxOf_eq_findIdxP {α : Type} [DecidableEq α] (a : α) :
    ∀ l : List α, idxOf a l = findIdxP (fun b => b = a) l := by
  intro l
  induction l with
  | nil => rfl
  | cons b l ih =>
    rw [idxOf, findIdxP]
    by_cases h : b = a
    · rw [if_pos h, if_pos h]
    · rw [if_neg h, if_neg h, ih]

/-- Decomposition at the first element satisfying a predicate. -/
lemma findIdxP_decomp {α : Type} (p : α → Prop) [DecidablePred p] :
    ∀ l : List α, (∃ a ∈ l, p a) →
      ∃ pre a suf, l = pre ++ a :: suf ∧ p a ∧
        findIdxP p l = pre.length ∧ ∀ b ∈ pre, ¬ p b := by
  intro l
  induction l with
  | nil => intro h; simp at h
  | cons c l ih =>
    intro h
    by_cases hc : p c
    · exact ⟨[], c, l, by simp, hc, by simp [findIdxP, hc], by simp⟩
    · obtain ⟨a, ha, hpa⟩ := h
      have ha' : a ∈ l := by
        rcases List.mem_cons.mp ha with rfl | ha'
        · exact absurd hpa hc
        · exact ha'
      obtain ⟨pre, a', suf, e, hpa', hidx, hpre⟩ := ih ⟨a, ha', hpa⟩
      refine ⟨c :: pre, a', suf, by rw [e]; rfl, hpa', ?_, ?_⟩
      · rw [findIdxP, if_neg hc, hidx]
        rfl
      · intro b hb
        rcases List.mem_cons.mp hb with rfl | hb
        · exact hc
        · exact hpre b hb

/-- The first index is no later than any index of a satisfying element:
if `l = pre ++ a :: suf` with `p a`, then `findIdxP p l ≤ pre.length`. -/
lemma findIdxP_le {α : Type} (p : α → Prop) [DecidablePred p] :
    ∀ (pre : List α) (a : α) (suf : List α), p a →
      findIdxP p (pre ++ a :: suf) ≤ pre.length := by
  intro pre
  induction pre with
  | nil =>
    intro a suf ha
    simp [findIdxP, ha]
  | cons c pre ih =>
    intro a suf ha
    rw [List.cons_append, findIdxP]
    by_cases hc : p c
    · rw [if_pos hc]
      omega
    · rw [if_neg hc]
      have := ih a suf ha
      simp only [List.length_cons]
      omega

/-- Members of the prefix before the first satisfying index fail the
predicate. -/
lemma findIdxP_ge {α : Type} (p : α → Prop) [DecidablePred p] :
    ∀ (pre : List α) (a : α) (suf : List α), (∀ b ∈ pre, ¬ p b) → ¬ p a →
      pre.length + 1 ≤ findIdxP p (pre ++ a :: suf) := by
  intro pre
  induction pre with
  | nil =>
    intro a suf _ hna
    simp [findIdxP, hna]
  | cons c pre ih =>
    intro a suf hpre hna
    rw [List.cons_append, findIdxP,
      if_neg (hpre c (List.mem_cons_self _ _))]
    have := ih a suf (fun b hb => hpre b (List.mem_cons_of_mem _ hb)) hna
    simp only [List.length_cons]
    omega

/-- Decomposition of a list at a member's first occurrence. -/
lemma idxOf_decomp {α : Type} [DecidableEq α] (a : α) (l : List α)
    (h : a ∈ l) :
    ∃ pre suf, l = pre ++ a :: suf ∧ idxOf a l = pre.length ∧ a ∉ pre := by
  obtain ⟨pre, a', suf, e, hpa, hidx, hpre⟩ :=
    findIdxP_decomp (fun b => b = a) l ⟨a, h, rfl⟩
  subst hpa
  exact ⟨pre, suf, e, by rw [idxOf_eq_findIdxP]; exact hidx,
    fun hmem => hpre a' hmem rfl⟩

/-- A prefix of failing elements bounds the first satisfying index from
below. -/
lemma findIdxP_ge_prefix {α : Type} (p : α → Prop) [DecidablePred p] :
    ∀ (pre rest : List α), (∀ b ∈ pre, ¬ p b) →
      pre.length ≤ findIdxP p (pre ++ rest) := by
  intro pre
  induction pre with
  | nil => intro rest _; simp
  | cons c pre ih =>
    intro rest hpre
    rw [List.cons_append, findIdxP,
      if_neg (hpre c (List.mem_cons_self _ _))]
    have := ih rest (fun b hb => hpre b (List.mem_cons_of_mem _ hb))
    simp only [List.length_cons]
    omega

/-- In a duplicate-free list split as `pre ++ a :: suf`, the first
occurrence of `a` is exactly at `pre.length` and members of `suf` have
strictly larger first occurrences. -/
lemma idxOf_split_nodup {α : Type} [DecidableEq α] (pre : List α) (a : α)
    (suf : List α) (hnd : (pre ++ a :: suf).Nodup) :
    idxOf a (pre ++ a :: suf) = pre.length ∧
    ∀ b ∈ suf, pre.length + 1 ≤ idxOf b (pre ++ a :: suf) := by
  obtain ⟨hnd1, hnd2, hdisj⟩ := List.nodup_append.mp hnd
  have hane : a ∉ pre := fun hmem => hdisj hmem (List.mem_cons_self _ _)
  constructor
  · rw [idxOf_eq_findIdxP]
    have h1 := findIdxP_le (fun b => b = a) pre a suf rfl
    have h2 := findIdxP_ge_prefix (fun b => b = a) pre (a :: suf)
      (fun b hb hba => hane (hba ▸ hb))
    omega
  · intro b hb
    have hbpre : ∀ c ∈ pre ++ [a], ¬ c = b := by
      intro c hc hcb
      subst hcb
      rcases List.mem_append.mp hc with hc | hc
      · exact hdisj hc (List.mem_cons_of_mem _ hb)
      · rcases List.mem_singleton.mp hc with rfl
        exact (List.nodup_cons.mp hnd2).1 hb
    have := findIdxP_ge_prefix (fun c => c = b) (pre ++ [a]) suf hbpre
    rw [idxOf_eq_findIdxP]
    have he : (pre ++ [a]) ++ suf = pre ++ a :: suf := by simp
    rw [he] at this
    simp only [List.length_append, List.length_cons, List.length_nil] at this
    omega

/-- On a duplicate-free list, first-occurrence indices of members are
injective. -/
lemma idxOf_inj_nodup {α : Type} [DecidableEq α] (l : List α)
    (hnd : l.Nodup) (a b : α) (ha : a ∈ l) (hb : b ∈ l)
    (h : idxOf a l = idxOf b l) : a = b := by
  obtain ⟨pre, suf, e, hidx, _⟩ := idxOf_decomp a l ha
  subst e
  obtain ⟨h1, h2⟩ := idxOf_split_nodup pre a suf hnd
  rcases List.mem_append.mp hb with hbp | hbc
  · obtain ⟨pre', suf', e', hidx', hnp'⟩ := idxOf_decomp b _ hbp
    exfalso
    have hble : idxOf b (pre ++ a :: suf) ≤ pre'.length := by
      rw [idxOf_eq_findIdxP]
      have he : pre ++ a :: suf = pre' ++ b :: (suf' ++ a :: suf) := by
        rw [e']
        simp
      rw [he]
      exact findIdxP_le _ pre' b _ rfl
    have hlt : pre'.length < pre.length := by
      have : pre.length = pre'.length + suf'.length + 1 := by
        rw [e']
        simp
        omega
      omega
    omega
  · rcases List.mem_cons.mp hbc with rfl | hbs
    · rfl
    · have := h2 b hbs
      omega

/-- Members of a duplicate-free list have strictly increasing first
occurrences in enumeration order. -/
lemma idxOf_pairwise_nodup {α : Type} [DecidableEq α] :
    ∀ l : List α, l.Nodup →
      List.Pairwise (fun a b => idxOf a l < idxOf b l) l := by
  intro l hnd
  have : ∀ (pre mid : List α), l = pre ++ mid →
      List.Pairwise (fun a b => idxOf a l < idxOf b l) mid := by
    intro pre mid
    induction mid generalizing pre with
    | nil => intro _; exact List.Pairwise.nil
    | cons a mid ih =>
      intro e
      refine List.Pairwise.cons ?_ (ih (pre ++ [a]) (by rw [e]; simp))
      intro b hb
      obtain ⟨h1, h2⟩ := idxOf_split_nodup pre a mid (e ▸ hnd)
      rw [← e] at h1 h2
      have := h2 b hb
      omega
  exact this [] l rfl

/-- Indices of a path's inputs in the input enumeration. -/
def inputIdxs (M : XMachine I O S Mem P) [DecidableEq I] (p : List I) :
    List Nat :=
  p.map (fun i => idxOf i M.all_inputs)

/-- With a duplicate-free input enumeration, `inputIdxs` is injective on
paths over the alphabet. -/
lemma inputIdxs_inj (M : XMachine I O S Mem P) [DecidableEq I]
    (hnd : M.all_inputs.Nodup) :
    ∀ (p q : List I), (∀ i ∈ p, i ∈ M.all_inputs) →
      (∀ i ∈ q, i ∈ M.all_inputs) → inputIdxs M p = inputIdxs M q → p = q := by
  intro p
  induction p with
  | nil =>
    intro q _ _ h
    cases q with
    | nil => rfl
    | cons b q => simp [inputIdxs] at h
  | cons a p ih =>
    intro q hp hq h
    cases q with
    | nil => simp [inputIdxs] at h
    | cons b q =>
      simp only [inputIdxs, List.map_cons, List.cons.injEq] at h
      have hab : a = b :=
        idxOf_inj_nodup M.all_inputs hnd a b
          (hp a (List.mem_cons_self _ _)) (hq b (List.mem_cons_self _ _)) h.1
      rw [hab, ih q (fun i hi => hp i (List.mem_cons_of_mem _ hi))
        (fun i hi => hq i (List.mem_cons_of_mem _ hi)) h.2]

/-- The key of a queue node `(u, q)`: path length, least initial-state
index whose seed reaches `u` along `q`, and the input indices of `q`. -/
def nodeKey (M : XMachine I O S Mem P) [DecidableEq S] [DecidableEq I]
    (u : S) (q : List I) : Nat × Nat × List Nat :=
  (q.length, findIdxP (fun s₀ => topoRun M s₀ q = some u) M.initial_states,
    inputIdxs M q)

/-- The key of a candidate pair (initial state, path): path length, the
initial state's enumeration index, and the input indices of the path. -/
def pairKey (M : XMachine I O S Mem P) [DecidableEq S] [DecidableEq I]
    (s₀ : S) (q : List I) : Nat × Nat × List Nat :=
  (q.length, idxOf s₀ M.initial_states, inputIdxs M q)

/-- `(u, q)` has minimal key among all valid pairs reaching `u`. -/
def MinKey (M : XMachine I O S Mem P) [DecidableEq S] [DecidableEq I]
    (u : S) (q : List I) : Prop :=
  ∀ s₀' q', ValidPath M s₀' q' u → keyLe (nodeKey M u q) (pairKey M s₀' q')

/-- A node's key never exceeds the key of any of its own valid pairs. -/
lemma nodeKey_le_pairKey (M : XMachine I O S Mem P) [DecidableEq S]
    [DecidableEq I] (u : S) (q : List I) (s₀ : S)
    (hs₀ : s₀ ∈ M.initial_states) (hrun : topoRun M s₀ q = some u) :
    keyLe (nodeKey M u q) (pairKey M s₀ q) := by
  obtain ⟨pre, suf, e, hidx, _⟩ := idxOf_decomp s₀ M.initial_states hs₀
  have hle : findIdxP (fun s' => topoRun M s' q = some u) M.initial_states ≤
      idxOf s₀ M.initial_states := by
    rw [hidx, e]
    exact findIdxP_le _ pre s₀ suf hrun
  rcases Nat.lt_or_ge (findIdxP (fun s' => topoRun M s' q = some u)
      M.initial_states) (idxOf s₀ M.initial_states) with h | h
  · exact Or.inl (Or.inr ⟨rfl, Or.inl h⟩)
  · have he : findIdxP (fun s' => topoRun M s' q = some u)
        M.initial_states = idxOf s₀ M.initial_states := by omega
    exact Or.inr (by rw [nodeKey, pairKey, he])

/-- The seed selected by a node's key really reaches the node's state: if
some valid pair reaches `u` along `q`, the enumeration splits at the key's
seed index into a prefix of seeds that do not reach `u` along `q` and a
seed that does. -/
lemma nodeKey_seed_decomp (M : XMachine I O S Mem P) [DecidableEq S]
    [DecidableEq I] (u : S) (q : List I) (s₀ : S)
    (hs₀ : s₀ ∈ M.initial_states) (hrun : topoRun M s₀ q = some u) :
    ∃ pre s₁ suf, M.initial_states = pre ++ s₁ :: suf ∧
      topoRun M s₁ q = some u ∧ (nodeKey M u q).2.1 = pre.length ∧
      ∀ b ∈ pre, ¬ topoRun M b q = some u :=
  findIdxP_decomp (fun s' => topoRun M s' q = some u) M.initial_states
    ⟨s₀, hs₀, hrun⟩

/-- Equal keys of inhabited nodes (over duplicate-free enumerations) force
equal states and equal paths. -/
lemma nodeKey_inj (M : XMachine I O S Mem P) [DecidableEq S] [DecidableEq I]
    (hndI : M.all_inputs.Nodup) (u u' : S) (q q' : List I)
    (hq : ∀ i ∈ q, i ∈ M.all_inputs) (hq' : ∀ i ∈ q', i ∈ M.all_inputs)
    (hu : ∃ s₀ ∈ M.initial_states, topoRun M s₀ q = some u)
    (hu' : ∃ s₀ ∈ M.initial_states, topoRun M s₀ q' = some u')
    (h : nodeKey M u q = nodeKey M u' q') : u = u' ∧ q = q' := by
  have hx : inputIdxs M q = inputIdxs M q' :=
    congrArg (fun k => k.2.2) h
  have hqq : q = q' := inputIdxs_inj M hndI q q' hq hq' hx
  subst hqq
  obtain ⟨s₀, hs₀, hrun⟩ := hu
  obtain ⟨s₀', hs₀', hrun'⟩ := hu'
  obtain ⟨pre, s₁, suf, e, hrun₁, hidx, _⟩ :=
    nodeKey_seed_decomp M u q s₀ hs₀ hrun
  obtain ⟨pre', s₁', suf', e', hrun₁', hidx', _⟩ :=
    nodeKey_seed_decomp M u' q s₀' hs₀' hrun'
  have hj : (nodeKey M u q).2.1 = (nodeKey M u' q).2.1 :=
    congrArg (fun k => k.2.1) h
  have hlen : pre.length = pre'.length := by omega
  have hpre : pre = pre' := by
    have t1 : pre = (pre ++ s₁ :: suf).take pre.length := by simp
    have t2 : pre' = (pre' ++ s₁' :: suf').take pre'.length := by simp
    rw [t1, t2, ← e, ← e', hlen]
  have hs₁ : s₁ = s₁' := by
    have d1 : (pre ++ s₁ :: suf).drop pre.length = s₁ :: suf := by simp
    have d2 : (pre' ++ s₁' :: suf').drop pre'.length = s₁' :: suf' := by simp
    rw [← e] at d1
    rw [← e'] at d2
    rw [hpre] at d1
    rw [d2] at d1
    exact ((List.cons.injEq _ _ _ _).mp d1).1.symm
  refine ⟨?_, rfl⟩
  rw [hs₁] at hrun₁
  rw [hrun₁] at hrun₁'
  exact Option.some.inj hrun₁'

end TieBreakIdx

section TieBreakStep

variable {I O S Mem P : Type}

/-- The early return of the plain search's inner loop fires at the first
listed input whose child is the target. -/
lemma stepInputs_inl_first (M : XMachine I O S Mem P) [DecidableEq S]
    (target s : S) (path : List I) :
    ∀ (rem : List I) (vis : List S) (acc : List (S × List I))
      (found : List I),
      SxMTester.stepInputs M target s path rem vis acc = Sum.inl found →
      ∃ pre i suf, rem = pre ++ i :: suf ∧ topoStep M s i = some target ∧
        found = path ++ [i] ∧ ∀ i' ∈ pre, topoStep M s i' ≠ some target := by
  intro rem
  induction rem with
  | nil => intro vis acc found h; simp [SxMTester.stepInputs] at h
  | cons i rem ih =>
    intro vis acc found h
    rw [SxMTester.stepInputs] at h
    cases hstep : topoStep M s i with
    | none =>
      simp only [hstep] at h
      obtain ⟨pre, i', suf, e, h1, h2, h3⟩ := ih vis acc found h
      refine ⟨i :: pre, i', suf, by rw [e]; rfl, h1, h2, ?_⟩
      intro i'' hi''
      rcases List.mem_cons.mp hi'' with rfl | hi''
      · rw [hstep]; simp
      · exact h3 i'' hi''
    | some ns =>
      simp only [hstep] at h
      by_cases h1 : ns = target
      · rw [if_pos h1] at h
        subst h1
        exact ⟨[], i, rem, by simp, hstep, (Sum.inl.inj h).symm, by simp⟩
      · rw [if_neg h1] at h
        have hne : topoStep M s i ≠ some target := by
          rw [hstep]
          intro hcon
          exact h1 (Option.some.inj hcon)
        by_cases h2 : ns ∈ vis
        · rw [if_pos h2] at h
          obtain ⟨pre, i', suf, e, ha, hb, hc⟩ := ih vis acc found h
          refine ⟨i :: pre, i', suf, by rw [e]; rfl, ha, hb, ?_⟩
          intro i'' hi''
          rcases List.mem_cons.mp hi'' with rfl | hi''
          · exact hne
          · exact hc i'' hi''
        · rw [if_neg h2] at h
          obtain ⟨pre, i', suf, e, ha, hb, hc⟩ := ih _ _ found h
          refine ⟨i :: pre, i', suf, by rw [e]; rfl, ha, hb, ?_⟩
          intro i'' hi''
          rcases List.mem_cons.mp hi'' with rfl | hi''
          · exact hne
          · exact hc i'' hi''

/-- Ordering information about the appended nodes of a completed inner
loop: each appended child is fresh and appears at the first listed input
reaching it, and the appended children respect the input list order. -/
lemma stepInputs_inr_order (M : XMachine I O S Mem P) [DecidableEq S]
    (target s : S) (path : List I) :
    ∀ (rem : List I) (vis : List S) (acc : List (S × List I))
      (vis' : List S) (acc₂ : List (S × List I)),
      SxMTester.stepInputs M target s path rem vis acc = Sum.inr (vis', acc₂) →
      ∃ new : List (S × List I),
        acc₂ = acc ++ new ∧
        (∀ x ∈ new, x.1 ∉ vis ∧
          ∃ pre i suf, rem = pre ++ i :: suf ∧
            topoStep M s i = some x.1 ∧ x.2 = path ++ [i] ∧
            ∀ i' ∈ pre, topoStep M s i' ≠ some x.1) ∧
        List.Pairwise (fun x y => ∀ ix iy, x.2 = path ++ [ix] →
          y.2 = path ++ [iy] →
          ∃ pre suf, rem = pre ++ ix :: suf ∧ iy ∈ suf) new := by
  intro rem
  induction rem with
  | nil =>
    intro vis acc vis' acc₂ h
    rw [SxMTester.stepInputs] at h
    have h2 : acc = acc₂ := congrArg Prod.snd (Sum.inr.inj h)
    subst h2
    exact ⟨[], by simp, by simp, List.Pairwise.nil⟩
  | cons i rem ih =>
    intro vis acc vis' acc₂ h
    rw [SxMTester.stepInputs] at h
    cases hstep : topoStep M s i with
    | none =>
      simp only [hstep] at h
      obtain ⟨new, e1, hx, hp⟩ := ih vis acc vis' acc₂ h
      refine ⟨new, e1, ?_, ?_⟩
      · intro x hxm
        obtain ⟨hnv, pre, i', suf, e, ha, hb, hc⟩ := hx x hxm
        refine ⟨hnv, i :: pre, i', suf, by rw [e]; rfl, ha, hb, ?_⟩
        intro i'' hi''
        rcases List.mem_cons.mp hi'' with rfl | hi''
        · rw [hstep]; simp
        · exact hc i'' hi''
      · refine hp.imp ?_
        intro x y hxy ix iy hx2 hy2
        obtain ⟨pre, suf, e, hmem⟩ := hxy ix iy hx2 hy2
        exact ⟨i :: pre, suf, by rw [e]; rfl, hmem⟩
    | some ns =>
      simp only [hstep] at h
      by_cases h1 : ns = target
      · rw [if_pos h1] at h
        exact absurd h (by simp)
      · rw [if_neg h1] at h
        by_cases h2 : ns ∈ vis
        · rw [if_pos h2] at h
          obtain ⟨new, e1, hx, hp⟩ := ih vis acc vis' acc₂ h
          refine ⟨new, e1, ?_, ?_⟩
          · intro x hxm
            obtain ⟨hnv, pre, i', suf, e, ha, hb, hc⟩ := hx x hxm
            refine ⟨hnv, i :: pre, i', suf, by rw [e]; rfl, ha, hb, ?_⟩
            intro i'' hi''
            rcases List.mem_cons.mp hi'' with rfl | hi''
            · rw [hstep]
              intro hcon
              exact hnv (Option.some.inj hcon ▸ h2)
            · exact hc i'' hi''
          · refine hp.imp ?_
            intro x y hxy ix iy hx2 hy2
            obtain ⟨pre, suf, e, hmem⟩ := hxy ix iy hx2 hy2
            exact ⟨i :: pre, suf, by rw [e]; rfl, hmem⟩
        · rw [if_neg h2] at h
          obtain ⟨new', e1, hx, hp⟩ := ih (vis ++ [ns])
            (acc ++ [(ns, path ++ [i])]) vis' acc₂ h
          refine ⟨(ns, path ++ [i]) :: new', by rw [e1]; simp, ?_, ?_⟩
          · intro x hxm
            rcases List.mem_cons.mp hxm with rfl | hxm
            · exact ⟨h2, [], i, rem, by simp, hstep, rfl, by simp⟩
            · obtain ⟨hnv, pre, i', suf, e, ha, hb, hc⟩ := hx x hxm
              refine ⟨fun hmem => hnv (List.mem_append_left _ hmem),
                i :: pre, i', suf, by rw [e]; rfl, ha, hb, ?_⟩
              intro i'' hi''
              rcases List.mem_cons.mp hi'' with rfl | hi''
              · rw [hstep]
                intro hcon
                exact hnv (Option.some.inj hcon ▸
                  List.mem_append_right _ (List.mem_singleton.mpr rfl))
              · exact hc i'' hi''
          · refine List.Pairwise.cons ?_ (hp.imp ?_)
            · intro y hym ix iy hx2 hy2
              have hix : ix = i := by
                have := List.append_inj_right hx2 rfl
                exact (List.cons.injEq _ _ _ _).mp this |>.1.symm
              obtain ⟨_, pre', i', suf', e', _, hb', _⟩ := hx y hym
              have hiy : iy = i' := by
                rw [hb'] at hy2
                have := List.append_inj_right hy2.symm rfl
                exact (List.cons.injEq _ _ _ _).mp this |>.1
              refine ⟨[], rem, by rw [hix]; rfl, ?_⟩
              rw [hiy, e']
              exact List.mem_append_right _ (List.mem_cons_self _ _)
            · intro x y hxy ix iy hx2 hy2
              obtain ⟨pre, suf, e, hmem⟩ := hxy ix iy hx2 hy2
              exact ⟨i :: pre, suf, by rw [e]; rfl, hmem⟩

end TieBreakStep

section TieBreakInv

variable {I O S Mem P : Type}

/-- Peeling an equal prefix off a lexicographic comparison. -/
lemma listLexLt_append_same : ∀ (xs as bs : List Nat),
    listLexLt (xs ++ as) (xs ++ bs) → listLexLt as bs := by
  intro xs
  induction xs with
  | nil => intro as bs h; exact h
  | cons x xs ih =>
    intro as bs h
    rcases h with h | ⟨_, h⟩
    · omega
    · exact ih as bs h

/-- Appending smaller last elements after an equal prefix. -/
lemma listLexLt_append_right : ∀ (xs : List Nat) (a b : Nat), a < b →
    listLexLt (xs ++ [a]) (xs ++ [b]) := by
  intro xs
  induction xs with
  | nil => intro a b h; exact Or.inl h
  | cons x xs ih => intro a b h; exact Or.inr ⟨rfl, ih a b h⟩

/-- `findIdxP` only depends on the predicate extensionally. -/
lemma findIdxP_congr {α : Type} (p q : α → Prop) [DecidablePred p]
    [DecidablePred q] (h : ∀ a, p a ↔ q a) :
    ∀ l : List α, findIdxP p l = findIdxP q l := by
  intro l
  induction l with
  | nil => rfl
  | cons a l ih =>
    rw [findIdxP, findIdxP]
    by_cases hp : p a
    · rw [if_pos hp, if_pos ((h a).mp hp)]
    · rw [if_neg hp, if_neg (fun hq => hp ((h a).mpr hq)), ih]

/-- A member whose first occurrence lands at a split point is the element
at that split point. -/
lemma eq_of_idxOf_split {α : Type} [DecidableEq α] (a : α) (l pre : List α)
    (c : α) (suf : List α) (ha : a ∈ l) (e : l = pre ++ c :: suf)
    (hidx : idxOf a l = pre.length) : a = c := by
  obtain ⟨pre₂, suf₂, e₂, hidx₂, _⟩ := idxOf_decomp a l ha
  have hlen : pre₂.length = pre.length := by omega
  have hpre : pre₂ = pre := by
    have t1 : pre₂ = l.take pre₂.length := by rw [e₂]; simp
    have t2 : pre = l.take pre.length := by rw [e]; simp
    rw [t1, t2, hlen]
  have d1 : l.drop pre₂.length = a :: suf₂ := by rw [e₂]; simp
  have d2 : l.drop pre.length = c :: suf := by rw [e]; simp
  rw [hpre] at d1
  rw [d2] at d1
  exact ((List.cons.injEq _ _ _ _).mp d1).1.symm

/-- A member with a first occurrence before a split point lies in the
prefix. -/
lemma mem_prefix_of_idxOf_lt {α : Type} [DecidableEq α] (a : α)
    (l pre rest : List α) (ha : a ∈ l) (e : l = pre ++ rest)
    (hidx : idxOf a l < pre.length) : a ∈ pre := by
  obtain ⟨pre₂, suf₂, e₂, hidx₂, _⟩ := idxOf_decomp a l ha
  have hlen : pre₂.length < pre.length := by omega
  have hp2 : pre₂ ++ [a] = l.take (pre₂.length + 1) := by
    rw [e₂, List.take_append_eq_append_take]
    simp
  have hsub : l.take (pre₂.length + 1) = pre.take (pre₂.length + 1) := by
    rw [e, List.take_append_eq_append_take]
    have : pre₂.length + 1 - pre.length = 0 := by omega
    rw [this]
    simp
  have hmem : a ∈ pre.take (pre₂.length + 1) := by
    rw [← hsub, ← hp2]
    exact List.mem_append_right _ (List.mem_singleton.mpr rfl)
  exact List.mem_of_mem_take hmem

/-- The lexicographic invariant of the plain search, layered on top of
`BfsInv`: queue nodes have key-minimal paths, the queue is key-sorted,
queue states are pairwise distinct, every non-seed node's key extends the
key of a parent that was popped before every remaining node of its level,
and every visited state has a key-minimal certificate. -/
def BfsInvL (M : XMachine I O S Mem P) [DecidableEq S] [DecidableEq I]
    (target : S) (Q : List (S × List I)) (V : List S) : Prop :=
  BfsInv M target Q V ∧
  (∀ x ∈ Q, MinKey M x.1 x.2) ∧
  List.Pairwise (fun a b => keyLe (nodeKey M a.1 a.2) (nodeKey M b.1 b.2)) Q ∧
  (Q.map Prod.fst).Nodup ∧
  (∀ x ∈ Q, x.2 ≠ [] → ∃ q' m, x.2 = q' ++ [m] ∧
    ∃ b, topoStep M b m = some x.1 ∧
      nodeKey M x.1 x.2 = (q'.length + 1, (nodeKey M b q').2.1,
        inputIdxs M q' ++ [idxOf m M.all_inputs]) ∧
      (∀ κ ∈ Q, κ.2.length = q'.length →
        keyLt (nodeKey M b q') (nodeKey M κ.1 κ.2))) ∧
  (∀ v ∈ V, ∃ pv, (∃ s₀, ValidPath M s₀ pv v) ∧ MinKey M v pv ∧
    ((v, pv) ∈ Q ∨ Expanded M target V v))

/-- Key-refined discovery: while a node heads the queue, the endpoint of
any valid pair whose key is below the head's key is already visited. -/
lemma bfs_key_discovered (M : XMachine I O S Mem P) [DecidableEq S]
    [DecidableEq I] (target s : S) (path : List I)
    (rest : List (S × List I)) (vis : List S)
    (hInvL : BfsInvL M target ((s, path) :: rest) vis) :
    ∀ (q : List I) (u s₀ : S), ValidPath M s₀ q u →
      keyLt (pairKey M s₀ q) (nodeKey M s path) → u ∈ vis := by
  obtain ⟨hB, hL1, hL2, hL3, hL4, hL5⟩ := hInvL
  intro q
  induction q using List.reverseRecOn with
  | nil =>
    intro u s₀ hv _
    obtain ⟨hmem, _, hrun⟩ := hv
    have he : s₀ = u := by simpa [topoRun] using hrun
    exact he ▸ hB.2.2.2.1 s₀ hmem
  | append_singleton q' i ih =>
    intro u s₀ hv hklt
    obtain ⟨hmem, hinp, hrun⟩ := hv
    rw [topoRun_concat] at hrun
    cases hprev : topoRun M s₀ q' with
    | none => rw [hprev] at hrun; simp at hrun
    | some u' =>
      rw [hprev] at hrun
      simp only [Option.some_bind] at hrun
      have hvalid' : ValidPath M s₀ q' u' :=
        ⟨hmem, fun j hj => hinp j (List.mem_append_left _ hj), hprev⟩
      have hlenle : (q' ++ [i]).length ≤ path.length := by
        rcases hklt with h | ⟨h, _⟩
        · simp only [pairKey, nodeKey] at h
          omega
        · simp only [pairKey, nodeKey] at h
          omega
      have hlt' : keyLt (pairKey M s₀ q') (nodeKey M s path) := by
        refine Or.inl ?_
        simp only [pairKey, nodeKey]
        simp only [List.length_append, List.length_cons, List.length_nil]
          at hlenle
        omega
      have hu' : u' ∈ vis := ih u' s₀ hvalid' hlt'
      obtain ⟨pv, _, hminkey, hcert⟩ := hL5 u' hu'
      have hlow : keyLt (nodeKey M u' pv) (nodeKey M s path) :=
        keyLt_of_le_of_lt (hminkey s₀ q' hvalid') hlt'
      rcases hcert with hin | hexp
      · exfalso
        rcases List.mem_cons.mp hin with heq | hin
        · have h1 : u' = s := congrArg Prod.fst heq
          have h2 : pv = path := congrArg Prod.snd heq
          rw [h1, h2] at hlow
          exact keyLt_irrefl _ hlow
        · have hhd := (List.pairwise_cons.mp hL2).1 (u', pv) hin
          exact keyLt_irrefl _ (keyLt_of_le_of_lt hhd hlow)
      · have hiin : i ∈ M.all_inputs :=
          hinp i (List.mem_append_right _ (List.mem_singleton.mpr rfl))
        exact (hexp i hiin u hrun).2

end TieBreakInv

section TieBreakStep2

variable {I O S Mem P : Type}

/-- A key-minimal certificate strictly below the head key cannot name a
queued node. -/
lemma cert_not_queued (M : XMachine I O S Mem P) [DecidableEq S]
    [DecidableEq I] (s : S) (path : List I) (rest : List (S × List I))
    (hL2 : List.Pairwise
      (fun a b => keyLe (nodeKey M a.1 a.2) (nodeKey M b.1 b.2))
      ((s, path) :: rest))
    (v : S) (pv : List I)
    (hlow : keyLt (nodeKey M v pv) (nodeKey M s path))
    (hin : (v, pv) ∈ (s, path) :: rest) : False := by
  rcases List.mem_cons.mp hin with heq | hin
  · have h1 : v = s := congrArg Prod.fst heq
    have h2 : pv = path := congrArg Prod.snd heq
    rw [h1, h2] at hlow
    exact keyLt_irrefl _ hlow
  · have hhd := (List.pairwise_cons.mp hL2).1 (v, pv) hin
    exact keyLt_irrefl _ (keyLt_of_le_of_lt hhd hlow)

/-- The least seed index of a freshly appended child equals the head's
least seed index: no earlier seed can reach the child, or the intermediate
state it would pass through would already have been expanded. -/
lemma child_seed_stable (M : XMachine I O S Mem P) [DecidableEq S]
    [DecidableEq I] (target s : S) (path : List I)
    (rest : List (S × List I)) (vis : List S)
    (hInvL : BfsInvL M target ((s, path) :: rest) vis)
    (c : S) (i : I) (hiin : i ∈ M.all_inputs)
    (hstepc : topoStep M s i = some c) (hfresh : c ∉ vis) :
    nodeKey M c (path ++ [i]) = (path.length + 1, (nodeKey M s path).2.1,
      inputIdxs M path ++ [idxOf i M.all_inputs]) := by
  obtain ⟨hB, hL1, hL2, hL3, hL4, hL5⟩ := hInvL
  obtain ⟨s₀h, hs₀mem, hinp_p, hrun_p⟩ := hB.1 (s, path) (List.mem_cons_self _ _)
  obtain ⟨pre, s₁, suf, edec, hrun₁, hjh, hpremiss⟩ :=
    nodeKey_seed_decomp M s path s₀h hs₀mem hrun_p
  have hrun₁c : topoRun M s₁ (path ++ [i]) = some c := by
    rw [topoRun_concat, hrun₁]
    simpa using hstepc
  have hle : findIdxP (fun s₀ => topoRun M s₀ (path ++ [i]) = some c)
      M.initial_states ≤ pre.length := by
    rw [edec]
    exact findIdxP_le _ pre s₁ suf hrun₁c
  have hge : pre.length ≤ findIdxP
      (fun s₀ => topoRun M s₀ (path ++ [i]) = some c) M.initial_states := by
    rw [edec]
    refine findIdxP_ge_prefix _ pre (s₁ :: suf) ?_
    intro b hb hbad
    rw [topoRun_concat] at hbad
    cases hprevb : topoRun M b path with
    | none => rw [hprevb] at hbad; simp at hbad
    | some s'' =>
      rw [hprevb] at hbad
      simp only [Option.some_bind] at hbad
      have hbmem : b ∈ M.initial_states := by
        rw [edec]
        exact List.mem_append_left _ hb
      have hbvalid : ValidPath M b path s'' := ⟨hbmem, hinp_p, hprevb⟩
      have hbidx : idxOf b M.initial_states < pre.length := by
        obtain ⟨pa, pb, epre⟩ := List.append_of_mem hb
        have e2 : M.initial_states = pa ++ b :: (pb ++ s₁ :: suf) := by
          rw [edec, epre]
          simp
        have h1 : idxOf b M.initial_states ≤ pa.length := by
          rw [idxOf_eq_findIdxP, e2]
          exact findIdxP_le _ pa b _ rfl
        have h2 : pre.length = pa.length + pb.length + 1 := by
          rw [epre]
          simp
          omega
        omega
      have hjh' : findIdxP (fun s₀ => topoRun M s₀ path = some s)
          M.initial_states = pre.length := hjh
      have hbklt : keyLt (pairKey M b path) (nodeKey M s path) := by
        refine Or.inr ⟨by simp [pairKey, nodeKey], Or.inl ?_⟩
        simp only [pairKey, nodeKey]
        omega
      have hs''vis : s'' ∈ vis :=
        bfs_key_discovered M target s path rest vis
          ⟨hB, hL1, hL2, hL3, hL4, hL5⟩ path s'' b hbvalid hbklt
      obtain ⟨pv, _, hminkey, hcert⟩ := hL5 s'' hs''vis
      have hlow : keyLt (nodeKey M s'' pv) (nodeKey M s path) :=
        keyLt_of_le_of_lt (hminkey b path hbvalid) hbklt
      rcases hcert with hin | hexp
      · exact cert_not_queued M s path rest hL2 s'' pv hlow hin
      · exact hfresh (hexp i hiin c hbad).2
  have hj : findIdxP (fun s₀ => topoRun M s₀ (path ++ [i]) = some c)
      M.initial_states = pre.length := by omega
  rw [nodeKey, hj]
  refine congrArg₂ Prod.mk ?_ (congrArg₂ Prod.mk ?_ ?_)
  · simp
  · omega
  · simp [inputIdxs]

end TieBreakStep2

section TieBreakStep3

variable {I O S Mem P : Type}

/-- Lexicographic comparison of singletons. -/
lemma listLexLt_singleton {a b : Nat} (h : listLexLt [a] [b]) : a < b := by
  rcases h with h | ⟨_, h⟩
  · exact h
  · exact absurd h (by simp [listLexLt])

/-- A freshly appended child's path has minimal key among all valid pairs
reaching the child's state. -/
lemma child_min_key (M : XMachine I O S Mem P) [DecidableEq S]
    [DecidableEq I] (target s : S) (path : List I)
    (rest : List (S × List I)) (vis : List S)
    (hndI : M.all_inputs.Nodup)
    (hInvL : BfsInvL M target ((s, path) :: rest) vis)
    (c : S) (i : I) (pre_i suf_i : List I)
    (edec : M.all_inputs = pre_i ++ i :: suf_i)
    (hstepc : topoStep M s i = some c) (hfresh : c ∉ vis)
    (hfirst : ∀ i' ∈ pre_i, topoStep M s i' ≠ some c) :
    MinKey M c (path ++ [i]) := by
  have hiin : i ∈ M.all_inputs := by
    rw [edec]
    exact List.mem_append_right _ (List.mem_cons_self _ _)
  have hstable := child_seed_stable M target s path rest vis hInvL c i hiin
    hstepc hfresh
  obtain ⟨hB, hL1, hL2, hL3, hL4, hL5⟩ := hInvL
  obtain ⟨s₀h, hs₀mem, hinp_p, hrun_p⟩ :=
    hB.1 (s, path) (List.mem_cons_self _ _)
  intro s₀' w hw
  rcases keyLt_trichotomy (pairKey M s₀' w) (nodeKey M c (path ++ [i]))
    with hlt | heq | hgt
  · exfalso
    obtain ⟨hs₀'mem, hwinp, hwrun⟩ := hw
    by_cases hlen : w.length ≤ path.length
    · exact hfresh (bfs_discovered M target s path rest vis hB w c s₀'
        ⟨hs₀'mem, hwinp, hwrun⟩ hlen)
    · have hwlen : w.length = path.length + 1 := by
        have h1 : (pairKey M s₀' w).1 = w.length := rfl
        have h2 : (nodeKey M c (path ++ [i])).1 = path.length + 1 := by
          rw [nodeKey]
          simp
        rcases hlt with h | ⟨h, _⟩ <;> omega
      obtain ⟨w', iw, hwdec⟩ : ∃ w' iw, w = w' ++ [iw] := by
        rcases List.eq_nil_or_concat w with h | ⟨w', iw, h⟩
        · rw [h] at hwlen; simp at hwlen
        · exact ⟨w', iw, by simpa [List.concat_eq_append] using h⟩
      subst hwdec
      rw [topoRun_concat] at hwrun
      cases hprev : topoRun M s₀' w' with
      | none => rw [hprev] at hwrun; simp at hwrun
      | some b =>
        rw [hprev] at hwrun
        simp only [Option.some_bind] at hwrun
        have hw'valid : ValidPath M s₀' w' b :=
          ⟨hs₀'mem, fun j hj => hwinp j (List.mem_append_left _ hj), hprev⟩
        have hiwin : iw ∈ M.all_inputs :=
          hwinp iw (List.mem_append_right _ (List.mem_singleton.mpr rfl))
        have hw'len : w'.length = path.length := by
          simp only [List.length_append, List.length_cons,
            List.length_nil] at hwlen
          omega
        rcases keyLt_trichotomy (pairKey M s₀' w') (nodeKey M s path)
          with hplt | hpeq | hpgt
        · have hbvis : b ∈ vis :=
            bfs_key_discovered M target s path rest vis
              ⟨hB, hL1, hL2, hL3, hL4, hL5⟩ w' b s₀' hw'valid hplt
          obtain ⟨pv, _, hminkey, hcert⟩ := hL5 b hbvis
          have hlow : keyLt (nodeKey M b pv) (nodeKey M s path) :=
            keyLt_of_le_of_lt (hminkey s₀' w' hw'valid) hplt
          rcases hcert with hin | hexp
          · exact cert_not_queued M s path rest hL2 b pv hlow hin
          · exact hfresh (hexp iw hiwin c hwrun).2
        · obtain ⟨pre, s₁, suf, edec', hrun₁, hjh, _⟩ :=
            nodeKey_seed_decomp M s path s₀h hs₀mem hrun_p
          have hjw : idxOf s₀' M.initial_states = pre.length := by
            have h1 : (pairKey M s₀' w').2.1 = idxOf s₀' M.initial_states :=
              rfl
            have h2 : (nodeKey M s path).2.1 = pre.length := hjh
            rw [← h1, hpeq, h2]
          have hs₀'e : s₀' = s₁ :=
            eq_of_idxOf_split s₀' M.initial_states pre s₁ suf hs₀'mem
              edec' hjw
          have hxw : inputIdxs M w' = inputIdxs M path := by
            have h1 : (pairKey M s₀' w').2.2 = inputIdxs M w' := rfl
            have h2 : (nodeKey M s path).2.2 = inputIdxs M path := rfl
            rw [← h1, hpeq, h2]
          have hw'path : w' = path :=
            inputIdxs_inj M hndI w' path
              (fun j hj => hwinp j (List.mem_append_left _ hj)) hinp_p hxw
          have hbs : b = s := by
            rw [hs₀'e, hw'path] at hprev
            rw [hprev] at hrun₁
            exact Option.some.inj hrun₁
          have hlex : idxOf iw M.all_inputs < idxOf i M.all_inputs := by
            rw [hstable] at hlt
            rcases hlt with h | ⟨_, h | ⟨_, h⟩⟩
            · have h1 : (pairKey M s₀' (w' ++ [iw])).1 =
                  w'.length + 1 := by
                rw [pairKey]
                simp
              omega
            · have h1 : (pairKey M s₀' (w' ++ [iw])).2.1 =
                  idxOf s₀' M.initial_states := rfl
              have h2 : findIdxP (fun s₀ => topoRun M s₀ path = some s)
                  M.initial_states = pre.length := hjh
              simp only [h1] at h
              omega
            · have h1 : (pairKey M s₀' (w' ++ [iw])).2.2 =
                  inputIdxs M w' ++ [idxOf iw M.all_inputs] := by
                rw [pairKey]
                simp [inputIdxs]
              simp only [h1, hxw] at h
              exact listLexLt_singleton (listLexLt_append_same _ _ _ h)
          have hidxi : idxOf i M.all_inputs = pre_i.length := by
            have h := (idxOf_split_nodup pre_i i suf_i
              (by rw [← edec]; exact hndI)).1
            rw [← edec] at h
            exact h
          have hiwpre : iw ∈ pre_i := by
            refine mem_prefix_of_idxOf_lt iw M.all_inputs pre_i
              (i :: suf_i) hiwin edec ?_
            omega
          rw [← hbs] at hfirst
          exact hfirst iw hiwpre hwrun
        · have hchild_lt : keyLt (nodeKey M c (path ++ [i]))
              (pairKey M s₀' (w' ++ [iw])) := by
            rw [hstable]
            have hplen : (nodeKey M s path).1 = path.length := rfl
            have hwplen : (pairKey M s₀' w').1 = w'.length := rfl
            rcases hpgt with h | ⟨_, h | ⟨hj, h⟩⟩
            · omega
            · refine Or.inr ⟨?_, Or.inl ?_⟩
              · rw [pairKey]
                simp
                omega
              · exact h
            · refine Or.inr ⟨?_, Or.inr ⟨hj, ?_⟩⟩
              · rw [pairKey]
                simp
                omega
              · have he : inputIdxs M (w' ++ [iw]) =
                    inputIdxs M w' ++ [idxOf iw M.all_inputs] := by
                  simp [inputIdxs]
                rw [pairKey]
                simp only
                rw [he]
                refine listLexLt_append _ _ _ _ ?_ h
                simp [inputIdxs, hw'len]
          exact keyLt_asymm hlt hchild_lt
  · exact Or.inr heq.symm
  · exact Or.inl hgt

end TieBreakStep3

section TieBreakMaint

variable {I O S Mem P : Type}

/-- Transport pairwise facts along a membership-aware implication. -/
lemma pairwise_imp_mem {α : Type} {R Q : α → α → Prop} :
    ∀ l : List α, (∀ a ∈ l, ∀ b ∈ l, R a b → Q a b) →
      l.Pairwise R → l.Pairwise Q := by
  intro l
  induction l with
  | nil => intro _ _; exact List.Pairwise.nil
  | cons a l ih =>
    intro h hp
    obtain ⟨h1, h2⟩ := List.pairwise_cons.mp hp
    refine List.Pairwise.cons ?_ (ih ?_ h2)
    · intro b hb
      exact h a (List.mem_cons_self _ _) b (List.mem_cons_of_mem _ hb)
        (h1 b hb)
    · intro a' ha' b hb
      exact h a' (List.mem_cons_of_mem _ ha') b (List.mem_cons_of_mem _ hb)

/-- Maintenance of the lexicographic invariant across one pop-and-expand
step of the plain search. -/
lemma bfsInvL_step (M : XMachine I O S Mem P) [DecidableEq S] [DecidableEq I]
    (target : S) (hC : ClosedMachine M) (hndI : M.all_inputs.Nodup)
    (s : S) (path : List I) (rest : List (S × List I)) (vis vis' : List S)
    (newNodes : List (S × List I))
    (hInvL : BfsInvL M target ((s, path) :: rest) vis)
    (hstep : SxMTester.stepInputs M target s path M.all_inputs vis [] =
      Sum.inr (vis', newNodes)) :
    BfsInvL M target (rest ++ newNodes) vis' := by
  obtain ⟨hInv', e2, nd, hfreshAll⟩ :=
    bfsInv_step M target hC s path rest vis vis' newNodes hInvL.1 hstep
  obtain ⟨newo, e1o, hxo, hpo⟩ :=
    stepInputs_inr_order M target s path M.all_inputs vis [] vis' newNodes
      hstep
  have enewo : newNodes = newo := by simpa using e1o
  subst enewo
  obtain ⟨news, e1s, e2s, nds, hxs, hrem⟩ :=
    stepInputs_inr_spec M target s path M.all_inputs vis [] vis' newNodes
      hstep
  have enews : newNodes = news := by simpa using e1s
  subst enews
  obtain ⟨hB, hL1, hL2, hL3, hL4, hL5⟩ := hInvL
  have hInvLfull : BfsInvL M target ((s, path) :: rest) vis :=
    ⟨hB, hL1, hL2, hL3, hL4, hL5⟩
  obtain ⟨s₀h, hs₀mem, hinp_p, hrun_p⟩ :=
    hB.1 (s, path) (List.mem_cons_self _ _)
  have hheadLen : ∀ a ∈ rest, path.length ≤ a.2.length ∧
      a.2.length ≤ path.length + 1 := by
    intro a ha
    constructor
    · exact (List.pairwise_cons.mp hB.2.2.2.2.1).1 a ha
    · have hle : a.2.length ≤ (s, path).2.length + 1 :=
        hB.2.2.2.2.2.1 a (List.mem_cons_of_mem _ ha) (s, path)
          (List.mem_cons_self _ _)
      exact hle
  have hchildKey : ∀ x ∈ newNodes, ∀ (i : I), x.2 = path ++ [i] →
      topoStep M s i = some x.1 → x.1 ∉ vis → i ∈ M.all_inputs →
      nodeKey M x.1 x.2 = (path.length + 1, (nodeKey M s path).2.1,
        inputIdxs M path ++ [idxOf i M.all_inputs]) := by
    intro x _ i he hstepi hnv hiin
    rw [he]
    exact child_seed_stable M target s path rest vis hInvLfull x.1 i hiin
      hstepi hnv
  have hminAll : ∀ x ∈ newNodes, MinKey M x.1 x.2 := by
    intro x hxm
    obtain ⟨hnv, pre, i, suf, edec, hstepi, he, hmiss⟩ := hxo x hxm
    rw [he]
    exact child_min_key M target s path rest vis hndI hInvLfull x.1 i pre
      suf edec hstepi hnv hmiss
  have hvalidNew : ∀ x ∈ rest ++ newNodes, ∃ s₀, ValidPath M s₀ x.2 x.1 :=
    hInv'.1
  have hstrictHead : ∀ κ ∈ rest, keyLt (nodeKey M s path)
      (nodeKey M κ.1 κ.2) := by
    intro κ hκ
    have hle := (List.pairwise_cons.mp hL2).1 κ hκ
    rcases hle with hlt | heq
    · exact hlt
    · exfalso
      obtain ⟨s₀κ, hκmem, hκinp, hκrun⟩ :=
        hB.1 κ (List.mem_cons_of_mem _ hκ)
      obtain ⟨hse, _⟩ := nodeKey_inj M hndI s κ.1 path κ.2 hinp_p hκinp
        ⟨s₀h, hs₀mem, hrun_p⟩ ⟨s₀κ, hκmem, hκrun⟩ heq
      have hnodup := hL3
      rw [List.map_cons, List.nodup_cons] at hnodup
      exact hnodup.1 (hse ▸ List.mem_map.mpr ⟨κ, hκ, rfl⟩)
  refine ⟨hInv', ?_, ?_, ?_, ?_, ?_⟩
  · intro x hxm
    rcases List.mem_append.mp hxm with hxm | hxm
    · exact hL1 x (List.mem_cons_of_mem _ hxm)
    · exact hminAll x hxm
  · rw [List.pairwise_append]
    refine ⟨(List.pairwise_cons.mp hL2).2, ?_, ?_⟩
    · refine pairwise_imp_mem newNodes ?_ hpo
      intro x hxm y hym hr
      obtain ⟨hnvx, prex, ix, sufx, edecx, hstepx, hex, _⟩ := hxo x hxm
      obtain ⟨hnvy, prey, iy, sufy, edecy, hstepy, hey, _⟩ := hxo y hym
      obtain ⟨pre, suf, edec, hiy⟩ := hr ix iy hex hey
      have hixin : ix ∈ M.all_inputs := by
        rw [edecx]
        exact List.mem_append_right _ (List.mem_cons_self _ _)
      have hiyin : iy ∈ M.all_inputs := by
        rw [edecy]
        exact List.mem_append_right _ (List.mem_cons_self _ _)
      have hidx : idxOf ix M.all_inputs < idxOf iy M.all_inputs := by
        have hsplit := idxOf_split_nodup pre ix suf
          (by rw [← edec]; exact hndI)
        have h1 : idxOf ix M.all_inputs = pre.length := by
          rw [edec]; exact hsplit.1
        have h2 : pre.length + 1 ≤ idxOf iy (pre ++ ix :: suf) :=
          hsplit.2 iy hiy
        rw [← edec] at h2
        omega
      rw [hchildKey x hxm ix hex hstepx hnvx hixin,
        hchildKey y hym iy hey hstepy hnvy hiyin]
      refine Or.inl (Or.inr ⟨rfl, Or.inr ⟨rfl, ?_⟩⟩)
      exact listLexLt_append_right _ _ _ hidx
    · intro κ hκ y hym
      obtain ⟨hnvy, prey, iy, sufy, edecy, hstepy, hey, _⟩ := hxo y hym
      have hiyin : iy ∈ M.all_inputs := by
        rw [edecy]
        exact List.mem_append_right _ (List.mem_cons_self _ _)
      have hykey := hchildKey y hym iy hey hstepy hnvy hiyin
      obtain ⟨hκge, hκle⟩ := hheadLen κ hκ
      by_cases hκl : κ.2.length ≤ path.length
      · refine Or.inl (Or.inl ?_)
        rw [hykey]
        have h1 : (nodeKey M κ.1 κ.2).1 = κ.2.length := rfl
        omega
      · have hκlen : κ.2.length = path.length + 1 := by omega
        have hκne : κ.2 ≠ [] := by
          intro hcon
          rw [hcon] at hκlen
          simp at hκlen
        obtain ⟨q', m, eκ, b, hstepb, hkeyeq, hstrict⟩ :=
          hL4 κ (List.mem_cons_of_mem _ hκ) hκne
        have hq'len : q'.length = path.length := by
          have : κ.2.length = q'.length + 1 := by rw [eκ]; simp
          omega
        have hstricthd : keyLt (nodeKey M b q') (nodeKey M s path) :=
          hstrict (s, path) (List.mem_cons_self _ _)
            (by simpa using hq'len.symm)
        rw [hykey, hkeyeq]
        have hbq1 : (nodeKey M b q').1 = q'.length := rfl
        have hhd1 : (nodeKey M s path).1 = path.length := rfl
        rcases hstricthd with h | ⟨_, h | ⟨hj, h⟩⟩
        · omega
        · exact Or.inl (Or.inr ⟨by omega, Or.inl h⟩)
        · refine Or.inl (Or.inr ⟨by omega, Or.inr ⟨hj, ?_⟩⟩)
          refine listLexLt_append _ _ _ _ ?_ h
          simp [inputIdxs, hq'len]
  · rw [List.map_append, List.nodup_append]
    refine ⟨?_, nd, ?_⟩
    · have hnodup := hL3
      rw [List.map_cons, List.nodup_cons] at hnodup
      exact hnodup.2
    · intro a ha hamem
      obtain ⟨κ, hκ, hκ1⟩ := List.mem_map.mp ha
      have haVis : a ∈ vis :=
        hκ1 ▸ (hB.2.1 κ (List.mem_cons_of_mem _ hκ)).1
      obtain ⟨y, hym, hy1⟩ := List.mem_map.mp hamem
      exact (hxo y hym).1 (hy1 ▸ haVis)
  · intro x hxm hxne
    rcases List.mem_append.mp hxm with hxm | hxm
    · obtain ⟨q', m, eκ, b, hstepb, hkeyeq, hstrict⟩ :=
        hL4 x (List.mem_cons_of_mem _ hxm) hxne
      refine ⟨q', m, eκ, b, hstepb, hkeyeq, ?_⟩
      intro κ' hκ' hκ'len
      rcases List.mem_append.mp hκ' with hκ' | hκ'
      · exact hstrict κ' (List.mem_cons_of_mem _ hκ') hκ'len
      · exfalso
        obtain ⟨_, _, _, _, _, _, hey, _⟩ := hxo κ' hκ'
        have h1 : κ'.2.length = path.length + 1 := by rw [hey]; simp
        have h2 : x.2.length = q'.length + 1 := by rw [eκ]; simp
        have h3 : x.2.length ≤ path.length + 1 := (hheadLen x hxm).2
        omega
    · obtain ⟨hnvx, prex, ix, sufx, edecx, hstepx, hex, _⟩ := hxo x hxm
      have hixin : ix ∈ M.all_inputs := by
        rw [edecx]
        exact List.mem_append_right _ (List.mem_cons_self _ _)
      refine ⟨path, ix, hex, s, hstepx, ?_, ?_⟩
      · exact hchildKey x hxm ix hex hstepx hnvx hixin
      · intro κ' hκ' hκ'len
        rcases List.mem_append.mp hκ' with hκ' | hκ'
        · exact hstrictHead κ' hκ'
        · exfalso
          obtain ⟨_, _, _, _, _, _, hey, _⟩ := hxo κ' hκ'
          have h1 : κ'.2.length = path.length + 1 := by rw [hey]; simp
          omega
  · intro v hv
    rw [e2] at hv
    rcases List.mem_append.mp hv with hv | hv
    · obtain ⟨pv, hval, hminkey, hcert⟩ := hL5 v hv
      rcases hcert with hin | hexp
      · rcases List.mem_cons.mp hin with heq | hin
        · have hv_s : v = s := congrArg Prod.fst heq
          subst hv_s
          refine ⟨pv, hval, hminkey, Or.inr ?_⟩
          intro i hiin c hstepc
          exact hrem i hiin c hstepc
        · exact ⟨pv, hval, hminkey, Or.inl (List.mem_append_left _ hin)⟩
      · refine ⟨pv, hval, hminkey, Or.inr ?_⟩
        intro i hiin c hstepc
        obtain ⟨hne, hcv⟩ := hexp i hiin c hstepc
        refine ⟨hne, ?_⟩
        rw [e2]
        exact List.mem_append_left _ hcv
    · obtain ⟨x, hxm, hx1⟩ := List.mem_map.mp hv
      subst hx1
      refine ⟨x.2, ?_, hminAll x hxm, Or.inl ?_⟩
      · exact hvalidNew x (List.mem_append_right _ hxm)
      · exact List.mem_append_right _ hxm

end TieBreakMaint

section TieBreakSeed

variable {I O S Mem P : Type}

/-- The key of the empty path at a state: length zero, the state's own
enumeration index among the initial states, no input indices. -/
lemma nodeKey_nil (M : XMachine I O S Mem P) [DecidableEq S] [DecidableEq I]
    (u : S) : nodeKey M u [] = (0, idxOf u M.initial_states, []) := by
  rw [nodeKey]
  have h : findIdxP (fun s₀ => topoRun M s₀ [] = some u) M.initial_states =
      findIdxP (fun s₀ => s₀ = u) M.initial_states :=
    findIdxP_congr _ _ (fun a => by simp [topoRun]) M.initial_states
  rw [h, ← idxOf_eq_findIdxP]
  rfl

/-- The empty path is key-minimal at its own endpoint. -/
lemma minKey_nil (M : XMachine I O S Mem P) [DecidableEq S] [DecidableEq I]
    (u : S) : MinKey M u [] := by
  intro s₀' q' hv
  obtain ⟨hmem, _, hrun⟩ := hv
  cases q' with
  | nil =>
    have he : s₀' = u := by simpa [topoRun] using hrun
    subst he
    exact Or.inr (by rw [nodeKey_nil]; simp [pairKey, inputIdxs])
  | cons i q' =>
    refine Or.inl (Or.inl ?_)
    rw [nodeKey_nil]
    simp [pairKey]

/-- The seed queue and visited set satisfy the lexicographic invariant. -/
lemma bfsInvL_seed (M : XMachine I O S Mem P) [DecidableEq S]
    [DecidableEq I] (target : S) (hC : ClosedMachine M)
    (hndS : M.initial_states.Nodup)
    (hne : ∀ s ∈ M.initial_states, s ≠ target) :
    BfsInvL M target (M.initial_states.map (fun s => (s, ([] : List I))))
      M.initial_states := by
  refine ⟨bfsInv_seed M target hC hne, ?_, ?_, ?_, ?_, ?_⟩
  · intro x hx
    obtain ⟨s₀, _, rfl⟩ := List.mem_map.mp hx
    exact minKey_nil M s₀
  · rw [List.pairwise_map]
    refine pairwise_imp_mem _ ?_ (idxOf_pairwise_nodup M.initial_states hndS)
    intro a _ b _ hab
    rw [nodeKey_nil, nodeKey_nil]
    exact Or.inl (Or.inr ⟨rfl, Or.inl hab⟩)
  · have he : (M.initial_states.map
        (fun s => (s, ([] : List I)))).map Prod.fst = M.initial_states := by
      have hf : (Prod.fst ∘ fun s : S => (s, ([] : List I))) = id :=
        funext (fun s => rfl)
      rw [List.map_map, hf, List.map_id]
    rw [he]
    exact hndS
  · intro x hx hxne
    obtain ⟨s₀, _, rfl⟩ := List.mem_map.mp hx
    exact absurd rfl hxne
  · intro v hv
    exact ⟨[], ⟨v, hv, by simp, by simp [topoRun]⟩, minKey_nil M v,
      Or.inl (List.mem_map.mpr ⟨v, hv, rfl⟩)⟩

end TieBreakSeed

section TieBreakMain

variable {I O S Mem P : Type}

/-- Under the lexicographic invariant, any path returned by the pop loop is
key-minimal among all valid pairs reaching the target. -/
lemma bfsAux_min_key (M : XMachine I O S Mem P) [DecidableEq S]
    [DecidableEq I] (target : S) (hC : ClosedMachine M)
    (hndI : M.all_inputs.Nodup) :
    ∀ (fuel : Nat) (Q : List (S × List I)) (V : List S) (p : List I),
      BfsInvL M target Q V →
      SxMTester.bfsAux M target fuel Q V = some (some p) →
      MinKey M target p := by
  intro fuel
  induction fuel with
  | zero => intro Q V p _ h; simp [SxMTester.bfsAux] at h
  | succ fuel ih =>
    intro Q V p hInvL h
    cases Q with
    | nil =>
      rw [SxMTester.bfsAux] at h
      exact absurd (Option.some.inj h) (by simp)
    | cons head rest =>
      cases head with
      | mk s path =>
        rw [SxMTester.bfsAux] at h
        cases hs : SxMTester.stepInputs M target s path M.all_inputs V [] with
        | inl found =>
          rw [hs] at h
          have hfp : found = p := Option.some.inj (Option.some.inj h)
          subst hfp
          obtain ⟨pre, i, suf, edec, hstepi, hfound, hfirst⟩ :=
            stepInputs_inl_first M target s path M.all_inputs V [] found hs
          subst hfound
          exact child_min_key M target s path rest V hndI hInvL target i
            pre suf edec hstepi hInvL.1.2.2.1 hfirst
        | inr out =>
          rw [hs] at h
          cases out with
          | mk vis' newNodes =>
            have hInvL' : BfsInvL M target (rest ++ newNodes) vis' :=
              bfsInvL_step M target hC hndI s path rest V vis' newNodes
                hInvL hs
            exact ih (rest ++ newNodes) vis' p hInvL' h

end TieBreakMain

section TieBreakTheorem

variable {I O S Mem P : Type}

/-- C8 (amended): over duplicate-free enumerations, whenever the plain
search returns a path, that path is valid and minimal for the lexicographic
key (path length, then enumeration index of the initial state, then the
enumeration indices of the inputs): ties between shortest paths are broken
by enumeration order of the initial states first, and of the inputs second
— not inputs first as the spec states. -/
theorem find_path_to_state_tie_break (M : XMachine I O S Mem P)
    [DecidableEq S] [DecidableEq I] (target : S) (hC : ClosedMachine M)
    (hndS : M.initial_states.Nodup) (hndI : M.all_inputs.Nodup)
    (p : List I) (h : SxMTester.find_path_to_state M target = some p) :
    (∃ s₀, ValidPath M s₀ p target) ∧
    ∀ s₀' q, ValidPath M s₀' q target →
      keyLe (nodeKey M target p) (pairKey M s₀' q) := by
  rw [SxMTester.find_path_to_state, SxMTester.find_path_raw] at h
  cases hseed : SxMTester.seedAux target M.initial_states [] [] with
  | inl u =>
    rw [hseed] at h
    replace h : (some (some ([] : List I))).join = some p := h
    have hpe : p = [] := by simpa [Option.join] using h.symm
    subst hpe
    have htmem : target ∈ M.initial_states :=
      seedAux_inl_spec target M.initial_states
        (I := I) [] [] (by cases u; exact hseed)
    exact ⟨⟨target, htmem, by simp, by simp [topoRun]⟩, minKey_nil M target⟩
  | inr out =>
    cases out with
    | mk q₀ v₀ =>
      rw [hseed] at h
      replace h :
          (SxMTester.bfsAux M target (SxMTester.bfsFuel M) q₀ v₀).join =
            some p := h
      obtain ⟨e1, e2, hne⟩ := seedAux_inr_spec target M.initial_states [] []
        q₀ v₀ hseed
      simp only [List.nil_append] at e1 e2
      subst e1
      subst e2
      have hInvL := bfsInvL_seed M target hC hndS hne
      cases hraw : SxMTester.bfsAux M target (SxMTester.bfsFuel M)
          (M.initial_states.map (fun s => (s, ([] : List I))))
          M.initial_states with
      | none => rw [hraw] at h; simp [Option.join] at h
      | some r =>
        rw [hraw] at h
        cases r with
        | none => simp [Option.join] at h
        | some p' =>
          have hpe : p' = p := by simpa [Option.join] using h
          subst hpe
          refine ⟨(bfsAux_sound_min M target hC (SxMTester.bfsFuel M) _ _ p'
            hInvL.1 hraw).1, ?_⟩
          exact bfsAux_min_key M target hC hndI (SxMTester.bfsFuel M) _ _ p'
            hInvL hraw

/-- Witness for the amended C8 on `MTie`: the search returns `[y]`, and
`[y]`'s key — reached from the first initial state `A` — is no larger than
the key of any valid pair, including `([x], B)` of equal length. -/
theorem find_path_to_state_tie_break_witness :
    SxMTester.find_path_to_state MTie .T = some [.y] ∧
    ((∃ s₀, ValidPath MTie s₀ [.y] .T) ∧
      ∀ s₀' q, ValidPath MTie s₀' q .T →
        keyLe (nodeKey MTie .T [.y]) (pairKey MTie s₀' q)) :=
  ⟨by decide, find_path_to_state_tie_break MTie .T (by decide) (by decide)
    (by decide) [.y] (by decide)⟩

end TieBreakTheorem
